import Mathlib

/-!
Verification of the GIREI chat client's streaming response pipeline.

This development shallowly embeds the renderer logic of the repository
(`formatMessage`, `addMessage`, `sendMessage` and its streaming loop, and the
`isAtBottom` scroll helper) as executable Lean definitions over `List Char`,
and proves the testable properties stated in the specification.

Modelling conventions:
* JS strings are `List Char`; string methods become list functions.
* A JS regex `replace` with the patterns used by this program (literal tags,
  lazy delimiter pairs) is embedded by explicit leftmost-first scanning
  (`splitF`, `removePairs`, `removeFrom`, the `mask*`/`restore*` scanners).
  Case-insensitive (`i` flag) matching of the ASCII-literal patterns is ASCII
  case folding (`lcase`).
* The external collaborators (`marked.parse`, `DOMPurify.sanitize`) are
  parameters of the model (`Collabs`); a throwing parse is `Option.none`.
* DOM state is a record of the fields the program reads and writes, and the
  observable effects of one `sendMessage` turn are recorded as an `Act` trace.
-/

namespace Girei

/-- ASCII case folding used to model the `i` flag of the program's regexes
(the patterns are ASCII literals, for which JS canonicalisation is ASCII
upper/lower-casing). -/
def lcase (c : Char) : Char :=
  if 'A' ≤ c ∧ c ≤ 'Z' then Char.ofNat (c.toNat + 32) else c

/-- JS `String.prototype.trim` whitespace class (WhiteSpace ∪ LineTerminator). -/
def jsWs (c : Char) : Bool :=
  c.toNat == 9 || c.toNat == 10 || c.toNat == 11 || c.toNat == 12 || c.toNat == 13 ||
  c.toNat == 32 || c.toNat == 160 || c.toNat == 0x1680 ||
  (0x2000 ≤ c.toNat && c.toNat ≤ 0x200A) ||
  c.toNat == 0x2028 || c.toNat == 0x2029 || c.toNat == 0x202F ||
  c.toNat == 0x205F || c.toNat == 0x3000 || c.toNat == 0xFEFF

/-- Left trim. -/
def trimL (s : List Char) : List Char := s.dropWhile jsWs

/-- Right trim. -/
def trimR (s : List Char) : List Char := (s.reverse.dropWhile jsWs).reverse

/-- JS `s.trim()`. -/
def jsTrim (s : List Char) : List Char := trimR (trimL s)

/-- Does `pat` match at the head of `s`, comparing characters through `f`
(`f := lcase` for case-insensitive literals, `f := id` for case-sensitive)? -/
def prefAt (f : Char → Char) (pat s : List Char) : Bool :=
  (pat.map f).isPrefixOf (s.map f)

/-- Leftmost occurrence of the literal `pat` in `s` under `f`:
`some (before, after)` splits `s` as `before ++ match ++ after` at the first
position where `pat` matches; `none` if there is no occurrence.  This is the
scanning behaviour of a JS regex whose pattern is the literal `pat`. -/
def splitF (f : Char → Char) (pat : List Char) : List Char → Option (List Char × List Char)
  | [] => if prefAt f pat [] then some ([], []) else none
  | c :: t =>
    if prefAt f pat (c :: t) then some ([], (c :: t).drop pat.length)
    else
      match splitF f pat t with
      | some (b, a) => some (c :: b, a)
      | none => none

theorem prefAt_iff {f : Char → Char} {pat s : List Char} :
    prefAt f pat s = true ↔ pat.map f <+: s.map f := by
  simp [prefAt, List.isPrefixOf_iff_prefix]

theorem prefAt_self_append (f : Char → Char) (pat t : List Char) :
    prefAt f pat (pat ++ t) = true := by
  simp [prefAt_iff, List.map_append]

theorem splitF_nil_pos {f : Char → Char} {pat : List Char} (hp : prefAt f pat [] = true) :
    splitF f pat [] = some ([], []) := by
  simp [splitF, hp]

theorem splitF_nil_neg {f : Char → Char} {pat : List Char} (hp : prefAt f pat [] = false) :
    splitF f pat [] = none := by
  simp [splitF, hp]

theorem splitF_cons_pos {f : Char → Char} {pat : List Char} {c : Char} {t : List Char}
    (hp : prefAt f pat (c :: t) = true) :
    splitF f pat (c :: t) = some ([], (c :: t).drop pat.length) := by
  simp [splitF, hp]

theorem splitF_cons_neg {f : Char → Char} {pat : List Char} {c : Char} {t : List Char}
    (hp : prefAt f pat (c :: t) = false) :
    splitF f pat (c :: t) = (splitF f pat t).map (fun q => (c :: q.1, q.2)) := by
  rcases h' : splitF f pat t with _ | ⟨b, a⟩ <;> simp [splitF, hp, h']

/-- `splitF` finds nothing exactly when `pat` (under `f`) is not an infix. -/
theorem splitF_none_iff {f : Char → Char} {pat : List Char} : ∀ {s : List Char},
    splitF f pat s = none ↔ ¬ pat.map f <:+: s.map f := by
  intro s
  induction s with
  | nil =>
    rcases hp : prefAt f pat [] with _ | _
    · rw [splitF_nil_neg hp]
      constructor
      · intro _ hinf
        have hnil : pat.map f = [] := by
          simpa using hinf.length_le
        have : prefAt f pat [] = true := prefAt_iff.2 (by simp [hnil])
        rw [this] at hp
        simp at hp
      · intro _; rfl
    · rw [splitF_nil_pos hp]
      have hinf : pat.map f <:+: ([] : List Char).map f :=
        (prefAt_iff.1 hp).isInfix
      constructor
      · intro h; exact absurd h (by simp)
      · intro h; exact absurd hinf h
  | cons c t ih =>
    rcases hp : prefAt f pat (c :: t) with _ | _
    · rw [splitF_cons_neg hp]
      rw [List.map_cons, List.infix_cons_iff]
      constructor
      · intro h hor
        rcases hor with hpre | hinf
        · rw [← List.map_cons] at hpre
          rw [prefAt_iff.2 hpre] at hp
          simp at hp
        · have ht : splitF f pat t = none := by
            rcases h' : splitF f pat t with _ | ⟨b, a⟩
            · rfl
            · rw [h'] at h; simp at h
          exact (ih.1 ht) hinf
      · intro h
        have ht : splitF f pat t = none := ih.2 (fun hinf => h (Or.inr hinf))
        rw [ht]; rfl
    · rw [splitF_cons_pos hp]
      constructor
      · intro h; exact absurd h (by simp)
      · intro h
        exact absurd (List.IsPrefix.isInfix (prefAt_iff.1 hp)) h

/-- Occurrences survive passage to any superstring: no occurrence in `t` and
`s` an infix of `t` gives no occurrence in `s`. -/
theorem splitF_none_isInfix {f : Char → Char} {pat s t : List Char}
    (ht : splitF f pat t = none) (hst : s <:+: t) : splitF f pat s = none := by
  rw [splitF_none_iff] at ht ⊢
  exact fun hinf => ht (hinf.trans (hst.map f))

/-- A string shorter than the pattern has no occurrence. -/
theorem splitF_none_of_short {f : Char → Char} {pat s : List Char}
    (h : s.length < pat.length) : splitF f pat s = none := by
  rw [splitF_none_iff]
  intro hinf
  have := hinf.length_le
  simp at this
  omega

/-- Head matches give a take/drop decomposition compatible with `f`. -/
theorem take_map_of_prefAt {f : Char → Char} {pat s : List Char}
    (hp : prefAt f pat s = true) : (s.take pat.length).map f = pat.map f := by
  have hpre := prefAt_iff.1 hp
  obtain ⟨r, hr⟩ := hpre
  rw [List.map_take, ← hr]
  rw [List.take_append_of_le_length (by simp)]
  simp

/-- Decomposition of a successful split. -/
theorem splitF_some_decomp {f : Char → Char} {pat : List Char} : ∀ {s b a : List Char},
    splitF f pat s = some (b, a) → ∃ m, s = b ++ m ++ a ∧ m.map f = pat.map f := by
  intro s
  induction s with
  | nil =>
    intro b a h
    rcases hp : prefAt f pat [] with _ | _
    · rw [splitF_nil_neg hp] at h; exact absurd h (by simp)
    · rw [splitF_nil_pos hp] at h
      injection h with h''
      have hb : b = [] := (congrArg Prod.fst h'').symm
      have ha : a = [] := (congrArg Prod.snd h'').symm
      have hlen : (pat.map f).length = 0 :=
        Nat.le_zero.1 (by simpa using (prefAt_iff.1 hp).length_le)
      have hpe : pat.map f = [] := List.eq_nil_of_length_eq_zero hlen
      exact ⟨[], by simp [hb, ha], by simp [hpe]⟩
  | cons c t ih =>
    intro b a h
    rcases hp : prefAt f pat (c :: t) with _ | _
    · rw [splitF_cons_neg hp] at h
      rcases h' : splitF f pat t with _ | ⟨b', a'⟩
      · rw [h'] at h; exact absurd h (by simp)
      · rw [h'] at h
        have h2 : some (c :: b', a') = some (b, a) := h
        have hb : b = c :: b' := by injection h2 with h'' ; exact (congrArg Prod.fst h'').symm
        have ha : a = a' := by injection h2 with h'' ; exact (congrArg Prod.snd h'').symm
        obtain ⟨m, hm1, hm2⟩ := ih h'
        exact ⟨m, by simp [hb, ha, hm1], hm2⟩
    · rw [splitF_cons_pos hp] at h
      have hb : b = [] := by injection h with h''; exact (congrArg Prod.fst h'').symm
      have ha : a = (c :: t).drop pat.length := by
        injection h with h''; exact (congrArg Prod.snd h'').symm
      refine ⟨(c :: t).take pat.length, ?_, take_map_of_prefAt hp⟩
      rw [hb, ha]
      simp

theorem splitF_some_length {f : Char → Char} {pat s b a : List Char}
    (h : splitF f pat s = some (b, a)) : s.length = b.length + pat.length + a.length := by
  obtain ⟨m, hm1, hm2⟩ := splitF_some_decomp h
  have : m.length = pat.length := by
    have := congrArg List.length hm2
    simpa using this
  simp [hm1, this]
  omega

/-- Nonempty patterns have no occurrence in the empty string. -/
theorem splitF_nil_of_ne {f : Char → Char} {pat : List Char} (hpat : pat ≠ []) :
    splitF f pat [] = none := by
  apply splitF_none_of_short
  simpa using List.length_pos.2 hpat

/-- Firstness: the part before the leftmost occurrence has no occurrence. -/
theorem splitF_some_first {f : Char → Char} {pat : List Char} (hpat : pat ≠ []) :
    ∀ {s b a : List Char},
    splitF f pat s = some (b, a) → splitF f pat b = none := by
  intro s
  induction s with
  | nil =>
    intro b a h
    rcases hp : prefAt f pat [] with _ | _
    · rw [splitF_nil_neg hp] at h; exact absurd h (by simp)
    · rw [splitF_nil_pos hp] at h
      injection h with h''
      have hb : b = [] := (congrArg Prod.fst h'').symm
      subst hb
      exact splitF_nil_of_ne hpat
  | cons c t ih =>
    intro b a h
    rcases hp : prefAt f pat (c :: t) with _ | _
    · rw [splitF_cons_neg hp] at h
      rcases h' : splitF f pat t with _ | ⟨b', a'⟩
      · rw [h'] at h; exact absurd h (by simp)
      · rw [h'] at h
        have h2 : some (c :: b', a') = some (b, a) := h
        injection h2 with h''
        have hba : b = c :: b' := (congrArg Prod.fst h'').symm
        subst hba
        have hnb' : splitF f pat b' = none := ih h'
        rw [splitF_none_iff] at hnb' ⊢
        intro hinf
        rw [List.map_cons, List.infix_cons_iff] at hinf
        rcases hinf with hpre | hinf
        · obtain ⟨m, hm1, _⟩ := splitF_some_decomp h'
          have hbpre : (c :: b').map f <+: (c :: t).map f := by
            simp only [List.map_cons]
            exact List.cons_prefix_cons.2 ⟨rfl, (by
              rw [hm1]
              exact ((List.prefix_append b' (m ++ a')).map f).trans
                (by simp [List.map_append]))⟩
          have : prefAt f pat (c :: t) = true := prefAt_iff.2 (hpre.trans hbpre)
          rw [this] at hp
          simp at hp
        · exact hnb' hinf
    · rw [splitF_cons_pos hp] at h
      injection h with h''
      have hb : b = [] := (congrArg Prod.fst h'').symm
      subst hb
      exact splitF_nil_of_ne hpat

/-- Scanning `p ++ s` when no match can start inside `p` is scanning `s`
shifted by `p`. -/
theorem splitF_append_shift {f : Char → Char} {pat : List Char} : ∀ {p s : List Char},
    (∀ r, r <:+ p → r ≠ [] → prefAt f pat (r ++ s) = false) →
    splitF f pat (p ++ s) = (splitF f pat s).map (fun q => (p ++ q.1, q.2)) := by
  intro p
  induction p with
  | nil =>
    intro s _
    rcases h' : splitF f pat s with _ | ⟨b, a⟩ <;> simp [h']
  | cons c p' ih =>
    intro s h
    have hp : prefAt f pat ((c :: p') ++ s) = false :=
      h (c :: p') (List.suffix_refl _) (by simp)
    rw [List.cons_append, splitF_cons_neg (by simpa using hp)]
    rw [ih (fun r hr hne => h r (hr.trans (List.suffix_cons c p')) hne)]
    rcases h' : splitF f pat s with _ | ⟨b, a⟩ <;> simp [h']

/-- No match can start inside `p` when `p` avoids the head character class of
the pattern. -/
theorem splitF_append_headfree {f : Char → Char} {c0 : Char} {pat' : List Char}
    {p s : List Char} (h : ∀ c ∈ p, f c ≠ f c0) :
    splitF f (c0 :: pat') (p ++ s) =
      (splitF f (c0 :: pat') s).map (fun q => (p ++ q.1, q.2)) := by
  apply splitF_append_shift
  intro r hr hne
  rcases r with _ | ⟨d, r'⟩
  · exact absurd rfl hne
  · rcases hb : prefAt f (c0 :: pat') ((d :: r') ++ s) with _ | _
    · rfl
    · have := prefAt_iff.1 hb
      rw [List.map_cons, List.cons_append, List.map_cons] at this
      have hd : f c0 = f d := (List.cons_prefix_cons.1 this).1
      exact absurd hd.symm (h d (hr.subset (by simp)))

/-- A pattern (under `f`) has no self-overlap: no proper nonempty shift of it
matches its own start.  All think-tag literals satisfy this. -/
def BorderFree (f : Char → Char) (pat : List Char) : Prop :=
  ∀ k, 0 < k → k < pat.length →
    (pat.map f).drop k ≠ (pat.map f).take (pat.length - k)

instance (f : Char → Char) (pat : List Char) : Decidable (BorderFree f pat) :=
  decidable_of_iff
    (∀ k < pat.length, 0 < k → (pat.map f).drop k ≠ (pat.map f).take (pat.length - k))
    (by
      constructor
      · intro h k hk0 hk; exact h k hk hk0
      · intro h k hk hk0; exact h k hk0 hk)

/-- When `p` has no occurrence of `pat` and `pat` is border free, the first
occurrence of `pat` in `p ++ pat ++ tail` is the explicit literal. -/
theorem splitF_append_pat {f : Char → Char} {pat p tail : List Char}
    (hp : splitF f pat p = none) (hb : BorderFree f pat) (hne : pat ≠ []) :
    splitF f pat (p ++ pat ++ tail) = some (p, tail) := by
  rw [List.append_assoc]
  have hshift : ∀ r, r <:+ p → r ≠ [] → prefAt f pat (r ++ (pat ++ tail)) = false := by
    intro r hr hne'
    rcases hq : prefAt f pat (r ++ (pat ++ tail)) with _ | _
    · rfl
    · exfalso
      have hpre := prefAt_iff.1 hq
      rw [List.map_append] at hpre
      obtain ⟨w, hw⟩ := hpre
      have h1 : (List.map f pat ++ w).take pat.length = List.map f pat := by
        rw [List.take_append_of_le_length (by simp), List.take_of_length_le (by simp)]
      by_cases hlen : pat.length ≤ r.length
      · -- the occurrence sits wholly inside `r`, hence inside `p`
        have h2 : (List.map f r ++ List.map f (pat ++ tail)).take pat.length
            = (List.map f r).take pat.length :=
          List.take_append_of_le_length (by simpa using hlen)
        have htake : List.map f pat = (List.map f r).take pat.length := by
          rw [← h1, hw, h2]
        have hocc : pat.map f <:+: p.map f := by
          have hx : pat.map f <+: r.map f := htake ▸ List.take_prefix _ _
          exact hx.isInfix.trans ((hr.map f).isInfix)
        exact (splitF_none_iff.1 hp) hocc
      · -- proper overlap: contradicts border freeness
        push_neg at hlen
        have hrne : 0 < r.length := List.length_pos.2 hne'
        have h2 : (List.map f r ++ (List.map f pat ++ List.map f tail)).take pat.length
            = List.map f r ++ (List.map f pat).take (pat.length - r.length) := by
          rw [List.take_append_eq_append_take,
            List.take_of_length_le (by simpa using Nat.le_of_lt hlen),
            List.take_append_of_le_length (by simp)]
          simp
        have htake : List.map f pat
            = List.map f r ++ (List.map f pat).take (pat.length - r.length) :=
          h1.symm.trans (by rw [hw, List.map_append, h2])
        have hlr : (List.map f r).length = r.length := by simp
        have hdrop : (List.map f pat).drop r.length
            = (List.map f pat).take (pat.length - r.length) := by
          have h3 := congrArg (List.drop r.length) htake
          rwa [List.drop_left' hlr] at h3
        exact hb r.length hrne hlen hdrop
  rw [splitF_append_shift hshift]
  have hsome : splitF f pat (pat ++ tail) = some ([], tail) := by
    rcases hpp : pat with _ | ⟨c0, pat0⟩
    · exact absurd hpp hne
    · rw [List.cons_append, splitF_cons_pos (by
        rw [← List.cons_append, ← hpp]
        exact prefAt_self_append f pat tail)]
      have hd : (c0 :: (pat0 ++ tail)).drop (c0 :: pat0).length = tail := by
        rw [List.length_cons, List.drop_succ_cons]
        exact List.drop_left pat0 tail
      rw [hd]
  rw [hsome]
  simp

/-- A prefix of `x ++ c :: y` that does not contain `c` is a prefix of `x`. -/
theorem pref_append_cons_of_not_mem {α : Type} {c : α} {y : List α} :
    ∀ {x l : List α}, l <+: x ++ c :: y → c ∉ l → l <+: x := by
  intro x
  induction x with
  | nil =>
    intro l h hc
    rcases l with _ | ⟨a, l'⟩
    · exact List.nil_prefix
    · rw [List.nil_append] at h
      have := (List.cons_prefix_cons.1 h).1
      exact absurd (this ▸ List.mem_cons_self a l') hc
  | cons d x' ih =>
    intro l h hc
    rcases l with _ | ⟨a, l'⟩
    · exact List.nil_prefix
    · rw [List.cons_append] at h
      obtain ⟨had, hl'⟩ := List.cons_prefix_cons.1 h
      have hcl' : c ∉ l' := fun hm => hc (List.mem_cons_of_mem a hm)
      exact List.cons_prefix_cons.2 ⟨had, ih hl' hcl'⟩

/-- An infix of `x ++ c :: y` that does not contain `c` lies in `x` or in `y`. -/
theorem infix_append_cons_of_not_mem {α : Type} {c : α} {y : List α} :
    ∀ {x l : List α}, l <:+: x ++ c :: y → c ∉ l → l <:+: x ∨ l <:+: y := by
  intro x
  induction x with
  | nil =>
    intro l h hc
    rw [List.nil_append] at h
    rcases List.infix_cons_iff.1 h with hpre | hinf
    · rcases l with _ | ⟨a, l'⟩
      · exact Or.inl List.nil_infix
      · have := (List.cons_prefix_cons.1 hpre).1
        exact absurd (this ▸ List.mem_cons_self a l') hc
    · exact Or.inr hinf
  | cons d x' ih =>
    intro l h hc
    rw [List.cons_append] at h
    rcases List.infix_cons_iff.1 h with hpre | hinf
    · exact Or.inl (pref_append_cons_of_not_mem (by rwa [List.cons_append]) hc).isInfix
    · rcases ih hinf hc with h1 | h1
      · exact Or.inl (List.infix_cons h1)
      · exact Or.inr h1

/-- An occurrence avoiding a separator character lies wholly on one side. -/
theorem splitF_avoid {f : Char → Char} {pat x y : List Char} {c : Char}
    (hc : ∀ a ∈ pat, f a ≠ f c) (hx : splitF f pat x = none) (hy : splitF f pat y = none) :
    splitF f pat (x ++ c :: y) = none := by
  rw [splitF_none_iff] at hx hy ⊢
  intro hinf
  rw [List.map_append, List.map_cons] at hinf
  have hmem : f c ∉ pat.map f := by
    intro hm
    obtain ⟨a, ha, hfa⟩ := List.mem_map.1 hm
    exact (hc a ha) hfa
  rcases infix_append_cons_of_not_mem hinf hmem with h1 | h1
  · exact hx h1
  · exact hy h1

theorem trimR_eq_rdropWhile (s : List Char) : trimR s = s.rdropWhile jsWs := rfl

theorem trimL_suffix (s : List Char) : trimL s <:+ s := List.dropWhile_suffix jsWs

theorem trimR_pref (s : List Char) : trimR s <+: s := by
  rw [trimR_eq_rdropWhile]
  exact List.rdropWhile_prefix jsWs s

theorem jsTrim_isInfix (s : List Char) : jsTrim s <:+: s :=
  ((trimR_pref (trimL s)).isInfix).trans (trimL_suffix s).isInfix

theorem trimL_idem (s : List Char) : trimL (trimL s) = trimL s :=
  List.dropWhile_idempotent jsWs s

theorem trimR_idem (s : List Char) : trimR (trimR s) = trimR s := by
  simp only [trimR_eq_rdropWhile]
  exact List.rdropWhile_idempotent jsWs s

theorem head?_of_pref {α : Type} {a b : List α} (h : a <+: b) (ha : a ≠ []) :
    b.head? = a.head? := by
  obtain ⟨t, ht⟩ := h
  rcases a with _ | ⟨c, a'⟩
  · exact absurd rfl ha
  · rw [← ht]; rfl

theorem trimL_trimR_trimL (s : List Char) :
    trimL (trimR (trimL s)) = trimR (trimL s) := by
  rcases hx : trimR (trimL s) with _ | ⟨c, x'⟩
  · rfl
  · have hpref : trimR (trimL s) <+: trimL s := trimR_pref (trimL s)
    have hne : trimR (trimL s) ≠ [] := by rw [hx]; simp
    have hh : (trimL s).head? = (trimR (trimL s)).head? := head?_of_pref hpref hne
    have htne : trimL s ≠ [] := by
      intro h0
      exact hne (by rw [h0]; rfl)
    have hnw : jsWs ((trimL s).head htne) = false := by
      have := List.head_dropWhile_not jsWs s (by simpa [trimL] using htne)
      simpa [trimL] using this
    have hch : (trimL s).head htne = c := by
      have h1 : (trimL s).head? = some c := by rw [hh, hx]; rfl
      have h2 : (trimL s).head? = some ((trimL s).head htne) := List.head?_eq_head htne
      rw [h1] at h2
      exact (Option.some.inj h2).symm
    have hcw : jsWs c = false := hch ▸ hnw
    simp [trimL, List.dropWhile_cons, hcw]

theorem jsTrim_idem (s : List Char) : jsTrim (jsTrim s) = jsTrim s := by
  simp only [jsTrim]
  rw [trimL_trimR_trimL, trimR_idem]

theorem jsTrim_trimL (s : List Char) : jsTrim (trimL s) = jsTrim s := by
  simp only [jsTrim]
  rw [trimL_idem]

theorem trimL_append {s : List Char} (hs : ∀ c ∈ s.head?, jsWs c = false) :
    ∀ p : List Char, trimL (p ++ s) = trimL p ++ s := by
  intro p
  induction p with
  | nil =>
    rcases s with _ | ⟨c, s'⟩
    · rfl
    · have : jsWs c = false := hs c rfl
      simp [trimL, List.dropWhile_cons, this]
  | cons c p' ih =>
    rcases hw : jsWs c with _ | _
    · simp [trimL, List.dropWhile_cons, hw]
    · simpa [trimL, List.dropWhile_cons, hw] using ih

theorem trimR_append {p : List Char} (hp : ∀ c ∈ p.getLast?, jsWs c = false) :
    ∀ s : List Char, trimR (p ++ s) = p ++ trimR s := by
  intro s
  have hrev : ∀ c ∈ p.reverse.head?, jsWs c = false := by
    intro c hc
    rw [List.head?_reverse] at hc
    exact hp c hc
  have h1 := trimL_append hrev s.reverse
  simp only [trimR]
  rw [List.reverse_append]
  rw [show List.dropWhile jsWs (s.reverse ++ p.reverse)
      = List.dropWhile jsWs s.reverse ++ p.reverse from h1]
  rw [List.reverse_append, List.reverse_reverse]

/-- Trimming around a block whose first and last characters are not whitespace
trims only the outer parts. -/
theorem jsTrim_append_mid {m : List Char} (hm : m ≠ [])
    (hh : ∀ c ∈ m.head?, jsWs c = false) (hl : ∀ c ∈ m.getLast?, jsWs c = false)
    (p s : List Char) : jsTrim (p ++ m ++ s) = trimL p ++ m ++ trimR s := by
  have h1 : trimL (p ++ (m ++ s)) = trimL p ++ (m ++ s) := by
    apply trimL_append _ p
    intro c hc
    apply hh
    rwa [List.head?_append_of_ne_nil m hm] at hc
  have h2 : trimR ((trimL p ++ m) ++ s) = (trimL p ++ m) ++ trimR s := by
    apply trimR_append _ s
    intro c hc
    apply hl
    rwa [List.getLast?_append_of_ne_nil (trimL p) hm] at hc
  simp only [jsTrim]
  rw [List.append_assoc, h1, ← List.append_assoc, h2]

/-- The reasoning start tag `<think>`. -/
def thinkOpen : List Char := "<think>".data

/-- The reasoning end tag `</think>`. -/
def thinkClose : List Char := "</think>".data

/-- HTML-entity-escaped start tag `&lt;think&gt;`. -/
def escOpen : List Char := "&lt;think&gt;".data

/-- HTML-entity-escaped end tag `&lt;/think&gt;`. -/
def escClose : List Char := "&lt;/think&gt;".data

/-- Model of the global replace `s.replace(/st[\s\S]*?en/gi, '')`: repeatedly
remove the segment from each leftmost start-tag occurrence to the earliest
end-tag occurrence after it; if a start tag has no end tag after it the regex
matches nothing further and the text is unchanged. -/
def removePairsGo (f : Char → Char) (st en : List Char) : Nat → List Char → List Char
  | 0, s => s
  | fuel + 1, s =>
    if st = [] ∨ en = [] then s
    else
      match splitF f st s with
      | none => s
      | some (b, r1) =>
        match splitF f en r1 with
        | none => s
        | some (_, r2) => b ++ removePairsGo f st en fuel r2

theorem removePairsGo_succ {f : Char → Char} {st en s : List Char} {k : Nat} :
    removePairsGo f st en (k + 1) s =
      if st = [] ∨ en = [] then s
      else
        match splitF f st s with
        | none => s
        | some (b, r1) =>
          match splitF f en r1 with
          | none => s
          | some (_, r2) => b ++ removePairsGo f st en k r2 := rfl

theorem removePairsGo_start_none {f : Char → Char} {st en s : List Char} (n : Nat)
    (h : splitF f st s = none) : removePairsGo f st en n s = s := by
  cases n with
  | zero => rfl
  | succ k =>
    rw [removePairsGo_succ]
    by_cases h0 : st = [] ∨ en = []
    · rw [if_pos h0]
    · rw [if_neg h0]
      split
      · rfl
      · next b r1 h1 =>
        rw [h] at h1
        exact absurd h1 (by simp)

theorem removePairsGo_end_none {f : Char → Char} {st en s b r1 : List Char} (n : Nat)
    (h1 : splitF f st s = some (b, r1)) (h2 : splitF f en r1 = none) :
    removePairsGo f st en n s = s := by
  cases n with
  | zero => rfl
  | succ k =>
    rw [removePairsGo_succ]
    by_cases h0 : st = [] ∨ en = []
    · rw [if_pos h0]
    · rw [if_neg h0]
      split
      · rfl
      · next b' r1' h1' =>
        rw [h1] at h1'
        injection h1' with he
        injection he with hb hr
        subst hb
        subst hr
        split
        · rfl
        · next m' r2' h2' =>
          rw [h2] at h2'
          exact absurd h2' (by simp)

theorem removePairsGo_succ_step {f : Char → Char} {st en s b r1 m r2 : List Char}
    (k : Nat) (hst : st ≠ []) (hen : en ≠ [])
    (h1 : splitF f st s = some (b, r1)) (h2 : splitF f en r1 = some (m, r2)) :
    removePairsGo f st en (k + 1) s = b ++ removePairsGo f st en k r2 := by
  rw [removePairsGo_succ, if_neg (by simp [hst, hen])]
  split
  · next h1' =>
    rw [h1] at h1'
    exact absurd h1' (by simp)
  · next b' r1' h1' =>
    rw [h1] at h1'
    injection h1' with he
    injection he with hb hr
    subst hb
    subst hr
    split
    · next h2' =>
      rw [h2] at h2'
      exact absurd h2' (by simp)
    · next m' r2' h2' =>
      rw [h2] at h2'
      injection h2' with he2
      injection he2 with hm hr2
      subst hr2
      rfl

/-- Each scan step consumes at least `st.length + en.length ≥ 2` characters, so
a fuel of `s.length` always suffices and the result is fuel-independent. -/
theorem removePairsGo_fuel {f : Char → Char} {st en : List Char} :
    ∀ (n : Nat) {m : Nat} {s : List Char}, s.length ≤ n → s.length ≤ m →
      removePairsGo f st en n s = removePairsGo f st en m s := by
  intro n
  induction n with
  | zero =>
    intro m s hn _
    have hs : s = [] := List.length_eq_zero.1 (Nat.le_zero.1 hn)
    subst hs
    by_cases hst : st = []
    · cases m with
      | zero => rfl
      | succ m1 =>
        rw [removePairsGo_succ, if_pos (Or.inl hst)]
        rfl
    · rw [removePairsGo_start_none 0 (splitF_nil_of_ne hst),
        removePairsGo_start_none m (splitF_nil_of_ne hst)]
  | succ n1 ih =>
    intro m s hn hm
    rcases h1 : splitF f st s with _ | ⟨b, r1⟩
    · rw [removePairsGo_start_none _ h1, removePairsGo_start_none _ h1]
    · rcases h2 : splitF f en r1 with _ | ⟨mid, r2⟩
      · rw [removePairsGo_end_none _ h1 h2, removePairsGo_end_none _ h1 h2]
      · by_cases h0 : st = [] ∨ en = []
        · cases m with
          | zero =>
            have hs : s = [] := List.length_eq_zero.1 (Nat.le_zero.1 hm)
            subst hs
            rw [removePairsGo_succ, if_pos h0]
            rfl
          | succ m1 =>
            rw [removePairsGo_succ, removePairsGo_succ, if_pos h0, if_pos h0]
        · have hst : st ≠ [] := fun h => h0 (Or.inl h)
          have hen : en ≠ [] := fun h => h0 (Or.inr h)
          cases m with
          | zero =>
            have l1 := splitF_some_length h1
            have hstl : 0 < st.length := List.length_pos.2 hst
            have hs0 : s.length = 0 := Nat.le_zero.1 hm
            omega
          | succ m1 =>
            rw [removePairsGo_succ_step n1 hst hen h1 h2,
              removePairsGo_succ_step m1 hst hen h1 h2]
            have l1 := splitF_some_length h1
            have l2 := splitF_some_length h2
            have hstl : 0 < st.length := List.length_pos.2 hst
            have henl : 0 < en.length := List.length_pos.2 hen
            exact congrArg (b ++ ·) (ih (by omega) (by omega))

def removePairs (f : Char → Char) (st en s : List Char) : List Char :=
  removePairsGo f st en s.length s

/-- Model of `s.replace(/pat[\s\S]*`/gi, '')`: drop everything from the first
occurrence of `pat` to the end of the string. -/
def removeFrom (f : Char → Char) (pat s : List Char) : List Char :=
  match splitF f pat s with
  | none => s
  | some (b, _) => b

/-- The four think-tag removal passes of `formatMessage` (part_001 lines
103–110), each followed by `.trim()`: complete raw pairs, complete escaped
pairs, trailing raw start tag to end of string, trailing escaped start tag to
end of string. -/
def stripThink (s : List Char) : List Char :=
  jsTrim (removeFrom lcase escOpen
    (jsTrim (removeFrom lcase thinkOpen
      (jsTrim (removePairs lcase escOpen escClose
        (jsTrim (removePairs lcase thinkOpen thinkClose s)))))))

/-- A string free of think tags in both raw and escaped spelling
(case-insensitively). -/
def ThinkFree (s : List Char) : Prop :=
  splitF lcase thinkOpen s = none ∧ splitF lcase thinkClose s = none ∧
  splitF lcase escOpen s = none ∧ splitF lcase escClose s = none

instance (s : List Char) : Decidable (ThinkFree s) := by
  unfold ThinkFree
  infer_instance

theorem ThinkFree.infix {s t : List Char} (ht : ThinkFree t) (hst : s <:+: t) :
    ThinkFree s :=
  ⟨splitF_none_isInfix ht.1 hst, splitF_none_isInfix ht.2.1 hst,
   splitF_none_isInfix ht.2.2.1 hst, splitF_none_isInfix ht.2.2.2 hst⟩

theorem removePairs_start_none {f : Char → Char} {st en s : List Char}
    (h : splitF f st s = none) : removePairs f st en s = s :=
  removePairsGo_start_none _ h

theorem removePairs_end_none {f : Char → Char} {st en s b r1 : List Char}
    (h1 : splitF f st s = some (b, r1)) (h2 : splitF f en r1 = none) :
    removePairs f st en s = s :=
  removePairsGo_end_none _ h1 h2

theorem removePairs_step {f : Char → Char} {st en s b r1 m r2 : List Char}
    (hst : st ≠ []) (hen : en ≠ [])
    (h1 : splitF f st s = some (b, r1)) (h2 : splitF f en r1 = some (m, r2)) :
    removePairs f st en s = b ++ removePairs f st en r2 := by
  have l1 := splitF_some_length h1
  have l2 := splitF_some_length h2
  have hstl : 0 < st.length := List.length_pos.2 hst
  have henl : 0 < en.length := List.length_pos.2 hen
  unfold removePairs
  obtain ⟨k, hk⟩ : ∃ k, s.length = k + 1 := ⟨s.length - 1, by omega⟩
  rw [hk, removePairsGo_succ_step k hst hen h1 h2]
  exact congrArg (b ++ ·) (removePairsGo_fuel k (by omega) (le_refl _))

theorem removeFrom_none {f : Char → Char} {pat s : List Char}
    (h : splitF f pat s = none) : removeFrom f pat s = s := by
  simp [removeFrom, h]

theorem removeFrom_some {f : Char → Char} {pat s b a : List Char}
    (h : splitF f pat s = some (b, a)) : removeFrom f pat s = b := by
  simp [removeFrom, h]

/-- On think-tag-free text all four removal passes are the identity and
`stripThink` is just `trim`. -/
theorem stripThink_free {s : List Char} (hs : ThinkFree s) : stripThink s = jsTrim s := by
  have hts : ThinkFree (jsTrim s) := hs.infix (jsTrim_isInfix s)
  unfold stripThink
  rw [removePairs_start_none hs.1,
    removePairs_start_none hts.2.2.1, jsTrim_idem,
    removeFrom_none hts.1, jsTrim_idem,
    removeFrom_none hts.2.2.1, jsTrim_idem]

/-- Removal of one explicit complete raw pair: with `A` think-free and the
surrounding text `p ++ B` think-free (also across the junction), the passes
remove exactly the tagged section and trim. -/
theorem stripThink_pair {p A B : List Char} (hA : ThinkFree A) (hPB : ThinkFree (p ++ B)) :
    stripThink (p ++ thinkOpen ++ A ++ thinkClose ++ B) = jsTrim (p ++ B) := by
  have hp : ThinkFree p := hPB.infix (List.prefix_append p B).isInfix
  have hB : ThinkFree B := hPB.infix (List.suffix_append p B).isInfix
  have hT : p ++ thinkOpen ++ A ++ thinkClose ++ B
      = p ++ thinkOpen ++ (A ++ thinkClose ++ B) := by
    simp [List.append_assoc]
  have hopen : splitF lcase thinkOpen (p ++ thinkOpen ++ A ++ thinkClose ++ B)
      = some (p, A ++ thinkClose ++ B) := by
    rw [hT]
    exact splitF_append_pat hp.1 (by decide) (by decide)
  have hclose : splitF lcase thinkClose (A ++ thinkClose ++ B) = some (A, B) :=
    splitF_append_pat hA.2.1 (by decide) (by decide)
  have hrp : removePairs lcase thinkOpen thinkClose
      (p ++ thinkOpen ++ A ++ thinkClose ++ B) = p ++ B := by
    rw [removePairs_step (by decide) (by decide) hopen hclose,
      removePairs_start_none hB.1]
  have htr : ThinkFree (jsTrim (p ++ B)) := hPB.infix (jsTrim_isInfix (p ++ B))
  unfold stripThink
  rw [hrp, removePairs_start_none htr.2.2.1, jsTrim_idem,
    removeFrom_none htr.1, jsTrim_idem,
    removeFrom_none htr.2.2.1, jsTrim_idem]

/-- Removal of a trailing unterminated raw start tag: pass 1 makes no match
(no end tag follows), pass 3 then removes the start tag and everything after
it, leaving `trim p`. -/
theorem stripThink_incomplete {p Cc : List Char} (hp : ThinkFree p) (hC : ThinkFree Cc) :
    stripThink (p ++ thinkOpen ++ Cc) = jsTrim p := by
  have hopen : splitF lcase thinkOpen (p ++ thinkOpen ++ Cc) = some (p, Cc) :=
    splitF_append_pat hp.1 (by decide) (by decide)
  have hrp : removePairs lcase thinkOpen thinkClose (p ++ thinkOpen ++ Cc)
      = p ++ thinkOpen ++ Cc :=
    removePairs_end_none hopen hC.2.1
  have hshape : p ++ thinkOpen ++ Cc = p ++ '<' :: ("think".data ++ '>' :: Cc) := by
    show p ++ thinkOpen ++ Cc = p ++ ('<' :: ("think".data ++ '>' :: Cc))
    rw [List.append_assoc]
    congr 1
  have hesc : splitF lcase escOpen (p ++ thinkOpen ++ Cc) = none := by
    rw [hshape]
    exact splitF_avoid (by decide) hp.2.2.1
      (splitF_avoid (by decide) (splitF_none_of_short (by decide)) hC.2.2.1)
  have hescT : splitF lcase escOpen (jsTrim (p ++ thinkOpen ++ Cc)) = none :=
    splitF_none_isInfix hesc (jsTrim_isInfix _)
  have htrim : jsTrim (p ++ thinkOpen ++ Cc) = trimL p ++ thinkOpen ++ trimR Cc :=
    jsTrim_append_mid (by decide) (by decide) (by decide) p Cc
  have hopen3 : splitF lcase thinkOpen (trimL p ++ thinkOpen ++ trimR Cc)
      = some (trimL p, trimR Cc) :=
    splitF_append_pat (splitF_none_isInfix hp.1 (trimL_suffix p).isInfix)
      (by decide) (by decide)
  have hescp : splitF lcase escOpen (jsTrim p) = none :=
    splitF_none_isInfix hp.2.2.1 (jsTrim_isInfix p)
  unfold stripThink
  rw [hrp, removePairs_start_none hescT, jsTrim_idem, htrim,
    removeFrom_some hopen3, jsTrim_trimL,
    removeFrom_none hescp, jsTrim_idem]

/-- Lazy match of `\$\$([\s\S]+?)\$\$` at the head of `s`: `some (tex, rest)`
with `tex` the (untrimmed) group and `rest` the text after the closing
delimiter.  The lazy group takes the least nonempty content followed by
`$$`. -/
def matchDD : List Char → Option (List Char × List Char)
  | c1 :: c2 :: c :: t =>
    if c1 = '$' ∧ c2 = '$' then
      match splitF id ['$', '$'] t with
      | some (b, a) => some (c :: b, a)
      | none => none
    else none
  | _ => none

/-- Lazy match of `\\\[([\s\S]+?)\\\]` at the head of `s`. -/
def matchBrk : List Char → Option (List Char × List Char)
  | c1 :: c2 :: c :: t =>
    if c1 = '\\' ∧ c2 = '[' then
      match splitF id ['\\', ']'] t with
      | some (b, a) => some (c :: b, a)
      | none => none
    else none
  | _ => none

/-- The display-math alternation `(\$\$([\s\S]+?)\$\$|\\\[([\s\S]+?)\\\])`
tried at one position (first alternative first). -/
def matchDisp (s : List Char) : Option (List Char × List Char) :=
  match matchDD s with
  | some r => some r
  | none => matchBrk s

/-- Lazy match of `\$([^\$\n]+?)\$` at the head: content is nonempty, free of
`$` and newline, ended by the next `$`. -/
def matchSD : List Char → Option (List Char × List Char)
  | c1 :: c :: t =>
    if c1 = '$' ∧ ¬(c = '$' ∨ c = '\n') then
      match splitF id ['$'] t with
      | some (b, a) => if '\n' ∈ c :: b then none else some (c :: b, a)
      | none => none
    else none
  | _ => none

/-- Lazy match of `\\\(([\s\S]+?)\\\)` at the head. -/
def matchParen : List Char → Option (List Char × List Char)
  | c1 :: c2 :: c :: t =>
    if c1 = '\\' ∧ c2 = '(' then
      match splitF id ['\\', ')'] t with
      | some (b, a) => some (c :: b, a)
      | none => none
    else none
  | _ => none

/-- The inline-math alternation `(\$([^\$\n]+?)\$|\\\(([\s\S]+?)\\\))` tried
at one position. -/
def matchInl (s : List Char) : Option (List Char × List Char) :=
  match matchSD s with
  | some r => some r
  | none => matchParen s

theorem pair_match_length {f : Char → Char} {pat t tex rest : List Char} {c : Char}
    (h : (match splitF f pat t with
          | some (b, a) => some (c :: b, a)
          | none => (none : Option (List Char × List Char))) = some (tex, rest))
    : ∃ b, splitF f pat t = some (b, rest) := by
  rcases h' : splitF f pat t with _ | ⟨b, a⟩
  · rw [h'] at h; exact absurd h (by simp)
  · rw [h'] at h
    injection h with he
    have ha : a = rest := by simpa using congrArg Prod.snd he
    exact ⟨b, by rw [ha]⟩

theorem matchDD_length {s tex rest : List Char} (h : matchDD s = some (tex, rest)) :
    rest.length < s.length := by
  rcases s with _ | ⟨c1, _ | ⟨c2, _ | ⟨c, t⟩⟩⟩
  · exact absurd h (by simp [matchDD])
  · exact absurd h (by simp [matchDD])
  · exact absurd h (by simp [matchDD])
  · rw [matchDD] at h
    by_cases hg : c1 = '$' ∧ c2 = '$'
    · rw [if_pos hg] at h
      obtain ⟨b, hb⟩ := pair_match_length h
      have := splitF_some_length hb
      simp
      omega
    · rw [if_neg hg] at h; exact absurd h (by simp)

theorem matchBrk_length {s tex rest : List Char} (h : matchBrk s = some (tex, rest)) :
    rest.length < s.length := by
  rcases s with _ | ⟨c1, _ | ⟨c2, _ | ⟨c, t⟩⟩⟩
  · exact absurd h (by simp [matchBrk])
  · exact absurd h (by simp [matchBrk])
  · exact absurd h (by simp [matchBrk])
  · rw [matchBrk] at h
    by_cases hg : c1 = '\\' ∧ c2 = '['
    · rw [if_pos hg] at h
      obtain ⟨b, hb⟩ := pair_match_length h
      have := splitF_some_length hb
      simp
      omega
    · rw [if_neg hg] at h; exact absurd h (by simp)

theorem matchDisp_length {s tex rest : List Char} (h : matchDisp s = some (tex, rest)) :
    rest.length < s.length := by
  unfold matchDisp at h
  rcases h1 : matchDD s with _ | r
  · rw [h1] at h
    exact matchBrk_length h
  · rw [h1] at h
    injection h with he
    rw [he] at h1
    exact matchDD_length h1

theorem matchSD_length {s tex rest : List Char} (h : matchSD s = some (tex, rest)) :
    rest.length < s.length := by
  rcases s with _ | ⟨c1, _ | ⟨c, t⟩⟩
  · exact absurd h (by simp [matchSD])
  · exact absurd h (by simp [matchSD])
  · rw [matchSD] at h
    by_cases hg : c1 = '$' ∧ ¬(c = '$' ∨ c = '\n')
    · rw [if_pos hg] at h
      rcases h' : splitF id ['$'] t with _ | ⟨b, a⟩
      · rw [h'] at h; exact absurd h (by simp)
      · rw [h'] at h
        have h2 : (if '\n' ∈ c :: b then none else some (c :: b, a)) = some (tex, rest) := h
        by_cases hn : '\n' ∈ c :: b
        · rw [if_pos hn] at h2; exact absurd h2 (by simp)
        · rw [if_neg hn] at h2
          injection h2 with he
          have ha : a = rest := by simpa using congrArg Prod.snd he
          have := splitF_some_length h'
          rw [ha] at this
          simp
          omega
    · rw [if_neg hg] at h; exact absurd h (by simp)

theorem matchParen_length {s tex rest : List Char} (h : matchParen s = some (tex, rest)) :
    rest.length < s.length := by
  rcases s with _ | ⟨c1, _ | ⟨c2, _ | ⟨c, t⟩⟩⟩
  · exact absurd h (by simp [matchParen])
  · exact absurd h (by simp [matchParen])
  · exact absurd h (by simp [matchParen])
  · rw [matchParen] at h
    by_cases hg : c1 = '\\' ∧ c2 = '('
    · rw [if_pos hg] at h
      obtain ⟨b, hb⟩ := pair_match_length h
      have := splitF_some_length hb
      simp
      omega
    · rw [if_neg hg] at h; exact absurd h (by simp)

theorem matchInl_length {s tex rest : List Char} (h : matchInl s = some (tex, rest)) :
    rest.length < s.length := by
  unfold matchInl at h
  rcases h1 : matchSD s with _ | r
  · rw [h1] at h
    exact matchParen_length h
  · rw [h1] at h
    injection h with he
    rw [he] at h1
    exact matchSD_length h1

/-- The placeholder `%%%DISPLAY<k>%%%`. -/
def phD (k : Nat) : List Char := "%%%DISPLAY".data ++ (Nat.repr k).data ++ "%%%".data

/-- The placeholder `%%%INLINE<k>%%%`. -/
def phI (k : Nat) : List Char := "%%%INLINE".data ++ (Nat.repr k).data ++ "%%%".data

/-- Model of the display-math masking replace (part_001 lines 115–119): scan
left to right, replace each match by its positional placeholder and push the
trimmed TeX group; `k` is the number of spans already collected. -/
def maskDispGo : Nat → List Char → Nat → List Char × List (List Char)
  | 0, _, _ => ([], [])
  | _ + 1, [], _ => ([], [])
  | fuel + 1, c :: t, k =>
    match matchDisp (c :: t) with
    | some (tex, rest) =>
      let r := maskDispGo fuel rest (k + 1)
      (phD k ++ r.1, jsTrim tex :: r.2)
    | none =>
      let r := maskDispGo fuel t k
      (c :: r.1, r.2)

theorem maskDispGo_cons {fuel k : Nat} {c : Char} {t : List Char} :
    maskDispGo (fuel + 1) (c :: t) k =
      match matchDisp (c :: t) with
      | some (tex, rest) =>
        let r := maskDispGo fuel rest (k + 1)
        (phD k ++ r.1, jsTrim tex :: r.2)
      | none =>
        let r := maskDispGo fuel t k
        (c :: r.1, r.2) := rfl

theorem maskDispGo_cons_some {fuel k : Nat} {c : Char} {t tex rest : List Char}
    (h : matchDisp (c :: t) = some (tex, rest)) :
    maskDispGo (fuel + 1) (c :: t) k =
      (phD k ++ (maskDispGo fuel rest (k + 1)).1,
       jsTrim tex :: (maskDispGo fuel rest (k + 1)).2) := by
  rw [maskDispGo_cons]
  split
  · next tex2 rest2 h2 =>
    rw [h] at h2
    injection h2 with he
    injection he with he1 he2
    subst he1
    subst he2
    rfl
  · next h2 =>
    rw [h] at h2
    exact absurd h2 (by simp)

theorem maskDispGo_cons_none {fuel k : Nat} {c : Char} {t : List Char}
    (h : matchDisp (c :: t) = none) :
    maskDispGo (fuel + 1) (c :: t) k =
      (c :: (maskDispGo fuel t k).1, (maskDispGo fuel t k).2) := by
  rw [maskDispGo_cons]
  split
  · next tex2 rest2 h2 =>
    rw [h] at h2
    exact absurd h2 (by simp)
  · rfl

theorem maskDispGo_fuel :
    ∀ (n : Nat) {m : Nat} {s : List Char} {k : Nat}, s.length ≤ n → s.length ≤ m →
      maskDispGo n s k = maskDispGo m s k := by
  intro n
  induction n with
  | zero =>
    intro m s k hn _
    have hs : s = [] := List.length_eq_zero.1 (Nat.le_zero.1 hn)
    subst hs
    cases m with
    | zero => rfl
    | succ m1 => rfl
  | succ n1 ih =>
    intro m s k hn hm
    cases s with
    | nil =>
      cases m with
      | zero => rfl
      | succ m1 => rfl
    | cons c t =>
      cases m with
      | zero => simp at hm
      | succ m1 =>
        rcases h : matchDisp (c :: t) with _ | ⟨tex, rest⟩
        · rw [maskDispGo_cons_none h, maskDispGo_cons_none h]
          have ht1 : t.length ≤ n1 := by simp at hn; omega
          have ht2 : t.length ≤ m1 := by simp at hm; omega
          rw [ih ht1 ht2]
        · have hlt := matchDisp_length h
          simp only [List.length_cons] at hn hm hlt
          have hr1 : rest.length ≤ n1 := by omega
          have hr2 : rest.length ≤ m1 := by omega
          rw [maskDispGo_cons_some h, maskDispGo_cons_some h, ih hr1 hr2]

/-- Model of the display-math masking replace wrapper: fuel is the string
length, which always suffices since each step consumes at least one
character. -/
def maskDisp (s : List Char) (k : Nat) : List Char × List (List Char) :=
  maskDispGo s.length s k

/-- Model of the inline-math masking replace (part_001 lines 122–126). -/
def maskInlGo : Nat → List Char → Nat → List Char × List (List Char)
  | 0, _, _ => ([], [])
  | _ + 1, [], _ => ([], [])
  | fuel + 1, c :: t, k =>
    match matchInl (c :: t) with
    | some (tex, rest) =>
      let r := maskInlGo fuel rest (k + 1)
      (phI k ++ r.1, jsTrim tex :: r.2)
    | none =>
      let r := maskInlGo fuel t k
      (c :: r.1, r.2)

theorem maskInlGo_cons {fuel k : Nat} {c : Char} {t : List Char} :
    maskInlGo (fuel + 1) (c :: t) k =
      match matchInl (c :: t) with
      | some (tex, rest) =>
        let r := maskInlGo fuel rest (k + 1)
        (phI k ++ r.1, jsTrim tex :: r.2)
      | none =>
        let r := maskInlGo fuel t k
        (c :: r.1, r.2) := rfl

theorem maskInlGo_cons_some {fuel k : Nat} {c : Char} {t tex rest : List Char}
    (h : matchInl (c :: t) = some (tex, rest)) :
    maskInlGo (fuel + 1) (c :: t) k =
      (phI k ++ (maskInlGo fuel rest (k + 1)).1,
       jsTrim tex :: (maskInlGo fuel rest (k + 1)).2) := by
  rw [maskInlGo_cons]
  split
  · next tex2 rest2 h2 =>
    rw [h] at h2
    injection h2 with he
    injection he with he1 he2
    subst he1
    subst he2
    rfl
  · next h2 =>
    rw [h] at h2
    exact absurd h2 (by simp)

theorem maskInlGo_cons_none {fuel k : Nat} {c : Char} {t : List Char}
    (h : matchInl (c :: t) = none) :
    maskInlGo (fuel + 1) (c :: t) k =
      (c :: (maskInlGo fuel t k).1, (maskInlGo fuel t k).2) := by
  rw [maskInlGo_cons]
  split
  · next tex2 rest2 h2 =>
    rw [h] at h2
    exact absurd h2 (by simp)
  · rfl

theorem maskInlGo_fuel :
    ∀ (n : Nat) {m : Nat} {s : List Char} {k : Nat}, s.length ≤ n → s.length ≤ m →
      maskInlGo n s k = maskInlGo m s k := by
  intro n
  induction n with
  | zero =>
    intro m s k hn _
    have hs : s = [] := List.length_eq_zero.1 (Nat.le_zero.1 hn)
    subst hs
    cases m with
    | zero => rfl
    | succ m1 => rfl
  | succ n1 ih =>
    intro m s k hn hm
    cases s with
    | nil =>
      cases m with
      | zero => rfl
      | succ m1 => rfl
    | cons c t =>
      cases m with
      | zero => simp at hm
      | succ m1 =>
        rcases h : matchInl (c :: t) with _ | ⟨tex, rest⟩
        · rw [maskInlGo_cons_none h, maskInlGo_cons_none h]
          have ht1 : t.length ≤ n1 := by simp at hn; omega
          have ht2 : t.length ≤ m1 := by simp at hm; omega
          rw [ih ht1 ht2]
        · have hlt := matchInl_length h
          simp only [List.length_cons] at hn hm hlt
          have hr1 : rest.length ≤ n1 := by omega
          have hr2 : rest.length ≤ m1 := by omega
          rw [maskInlGo_cons_some h, maskInlGo_cons_some h, ih hr1 hr2]

def maskInl (s : List Char) (k : Nat) : List Char × List (List Char) :=
  maskInlGo s.length s k

/-- Match of `tag(\d+)%%%` at the head of `s` (greedy digits, as in the
restoration regexes): returns the digit group and the rest. -/
def tryTok (tag : List Char) (s : List Char) : Option (List Char × List Char) :=
  if tag.isPrefixOf s then
    let u := s.drop tag.length
    let ds := u.takeWhile Char.isDigit
    if ds.isEmpty then none
    else
      let v := u.drop ds.length
      if ("%%%".data).isPrefixOf v then some (ds, v.drop 3) else none
  else none

theorem tryTok_length {tag s ds rest : List Char} (htag : tag ≠ [])
    (h : tryTok tag s = some (ds, rest)) : rest.length < s.length := by
  unfold tryTok at h
  by_cases h1 : tag.isPrefixOf s
  · rw [if_pos h1] at h
    by_cases h2 : ((s.drop tag.length).takeWhile Char.isDigit).isEmpty
    · rw [if_pos h2] at h; exact absurd h (by simp)
    · rw [if_neg h2] at h
      by_cases h3 : ("%%%".data).isPrefixOf
          ((s.drop tag.length).drop ((s.drop tag.length).takeWhile Char.isDigit).length)
      · rw [if_pos h3] at h
        injection h with he
        have hr : ((s.drop tag.length).drop
            ((s.drop tag.length).takeWhile Char.isDigit).length).drop 3 = rest := by
          have := congrArg Prod.snd he
          simpa using this
        have hlen1 : tag.length ≤ s.length :=
          (List.isPrefixOf_iff_prefix.1 h1).length_le
        have hlen0 : 0 < tag.length := List.length_pos.2 htag
        have hlen2 : 0 < ((s.drop tag.length).takeWhile Char.isDigit).length := by
          rcases hds : (s.drop tag.length).takeWhile Char.isDigit with _ | ⟨d, ds'⟩
          · rw [hds] at h2; simp at h2
          · simp
        rw [← hr]
        simp only [List.length_drop]
        omega
      · rw [if_neg h3] at h; exact absurd h (by simp)
  · rw [if_neg h1] at h; exact absurd h (by simp)

/-- Numeric value of a digit string. -/
def digitsToNat (ds : List Char) : Nat :=
  ds.foldl (fun n c => n * 10 + (c.toNat - 48)) 0

/-- A JS array lookup `tbl[i]` where `i` is the digit string captured by the
restoration regex: only a canonical decimal numeral (no leading zeros) is an
array index; anything else, and any out-of-range index, reads `undefined`,
which the template literal renders as the text `undefined`. -/
def canonIdx (ds : List Char) : Option Nat :=
  if ds = ['0'] ∨ ds.head? ≠ some '0' then some (digitsToNat ds) else none

def undefinedText : List Char := "undefined".data

def lookupTex (tbl : List (List Char)) (ds : List Char) : List Char :=
  match canonIdx ds with
  | some n => tbl.getD n undefinedText
  | none => undefinedText

/-- Model of `html.replace(/%%%DISPLAY(\d+)%%%/g, (m,i) => `...`)`
(part_001 line 143): each token becomes its TeX wrapped in `$$ … $$`. -/
def restoreDispGo (tbl : List (List Char)) : Nat → List Char → List Char
  | 0, _ => []
  | _ + 1, [] => []
  | fuel + 1, c :: t =>
    match tryTok "%%%DISPLAY".data (c :: t) with
    | some (ds, rest) =>
      "$$".data ++ lookupTex tbl ds ++ "$$".data ++ restoreDispGo tbl fuel rest
    | none => c :: restoreDispGo tbl fuel t

theorem restoreDispGo_cons {tbl : List (List Char)} {fuel : Nat} {c : Char}
    {t : List Char} :
    restoreDispGo tbl (fuel + 1) (c :: t) =
      match tryTok "%%%DISPLAY".data (c :: t) with
      | some (ds, rest) =>
        "$$".data ++ lookupTex tbl ds ++ "$$".data ++ restoreDispGo tbl fuel rest
      | none => c :: restoreDispGo tbl fuel t := rfl

theorem restoreDispGo_cons_some {tbl : List (List Char)} {fuel : Nat} {c : Char}
    {t ds rest : List Char} (h : tryTok "%%%DISPLAY".data (c :: t) = some (ds, rest)) :
    restoreDispGo tbl (fuel + 1) (c :: t) =
      "$$".data ++ lookupTex tbl ds ++ "$$".data ++ restoreDispGo tbl fuel rest := by
  rw [restoreDispGo_cons]
  split
  · next ds2 rest2 h2 =>
    rw [h] at h2
    injection h2 with he
    injection he with he1 he2
    subst he1
    subst he2
    rfl
  · next h2 =>
    rw [h] at h2
    exact absurd h2 (by simp)

theorem restoreDispGo_cons_none {tbl : List (List Char)} {fuel : Nat} {c : Char}
    {t : List Char} (h : tryTok "%%%DISPLAY".data (c :: t) = none) :
    restoreDispGo tbl (fuel + 1) (c :: t) = c :: restoreDispGo tbl fuel t := by
  rw [restoreDispGo_cons]
  split
  · next ds2 rest2 h2 =>
    rw [h] at h2
    exact absurd h2 (by simp)
  · rfl

theorem restoreDispGo_fuel {tbl : List (List Char)} :
    ∀ (n : Nat) {m : Nat} {s : List Char}, s.length ≤ n → s.length ≤ m →
      restoreDispGo tbl n s = restoreDispGo tbl m s := by
  intro n
  induction n with
  | zero =>
    intro m s hn _
    have hs : s = [] := List.length_eq_zero.1 (Nat.le_zero.1 hn)
    subst hs
    cases m with
    | zero => rfl
    | succ m1 => rfl
  | succ n1 ih =>
    intro m s hn hm
    cases s with
    | nil =>
      cases m with
      | zero => rfl
      | succ m1 => rfl
    | cons c t =>
      cases m with
      | zero => simp at hm
      | succ m1 =>
        rcases h : tryTok "%%%DISPLAY".data (c :: t) with _ | ⟨ds, rest⟩
        · rw [restoreDispGo_cons_none h, restoreDispGo_cons_none h]
          have ht1 : t.length ≤ n1 := by simp at hn; omega
          have ht2 : t.length ≤ m1 := by simp at hm; omega
          rw [ih ht1 ht2]
        · have hlt := tryTok_length (by decide) h
          simp only [List.length_cons] at hn hm hlt
          have hr1 : rest.length ≤ n1 := by omega
          have hr2 : rest.length ≤ m1 := by omega
          rw [restoreDispGo_cons_some h, restoreDispGo_cons_some h, ih hr1 hr2]

/-- Model of `html.replace(/%%%DISPLAY(\d+)%%%/g, (m,i) => `...`)`
(part_001 line 143): each token becomes its TeX wrapped in `$$ … $$`. -/
def restoreDisp (tbl : List (List Char)) (s : List Char) : List Char :=
  restoreDispGo tbl s.length s

/-- Model of `html.replace(/%%%INLINE(\d+)%%%/g, (m,i) => `...`)`
(part_001 line 144): each token becomes its TeX wrapped in `\( … \)`. -/
def restoreInlGo (tbl : List (List Char)) : Nat → List Char → List Char
  | 0, _ => []
  | _ + 1, [] => []
  | fuel + 1, c :: t =>
    match tryTok "%%%INLINE".data (c :: t) with
    | some (ds, rest) =>
      "\\(".data ++ lookupTex tbl ds ++ "\\)".data ++ restoreInlGo tbl fuel rest
    | none => c :: restoreInlGo tbl fuel t

theorem restoreInlGo_cons {tbl : List (List Char)} {fuel : Nat} {c : Char}
    {t : List Char} :
    restoreInlGo tbl (fuel + 1) (c :: t) =
      match tryTok "%%%INLINE".data (c :: t) with
      | some (ds, rest) =>
        "\\(".data ++ lookupTex tbl ds ++ "\\)".data ++ restoreInlGo tbl fuel rest
      | none => c :: restoreInlGo tbl fuel t := rfl

theorem restoreInlGo_cons_some {tbl : List (List Char)} {fuel : Nat} {c : Char}
    {t ds rest : List Char} (h : tryTok "%%%INLINE".data (c :: t) = some (ds, rest)) :
    restoreInlGo tbl (fuel + 1) (c :: t) =
      "\\(".data ++ lookupTex tbl ds ++ "\\)".data ++ restoreInlGo tbl fuel rest := by
  rw [restoreInlGo_cons]
  split
  · next ds2 rest2 h2 =>
    rw [h] at h2
    injection h2 with he
    injection he with he1 he2
    subst he1
    subst he2
    rfl
  · next h2 =>
    rw [h] at h2
    exact absurd h2 (by simp)

theorem restoreInlGo_cons_none {tbl : List (List Char)} {fuel : Nat} {c : Char}
    {t : List Char} (h : tryTok "%%%INLINE".data (c :: t) = none) :
    restoreInlGo tbl (fuel + 1) (c :: t) = c :: restoreInlGo tbl fuel t := by
  rw [restoreInlGo_cons]
  split
  · next ds2 rest2 h2 =>
    rw [h] at h2
    exact absurd h2 (by simp)
  · rfl

theorem restoreInlGo_fuel {tbl : List (List Char)} :
    ∀ (n : Nat) {m : Nat} {s : List Char}, s.length ≤ n → s.length ≤ m →
      restoreInlGo tbl n s = restoreInlGo tbl m s := by
  intro n
  induction n with
  | zero =>
    intro m s hn _
    have hs : s = [] := List.length_eq_zero.1 (Nat.le_zero.1 hn)
    subst hs
    cases m with
    | zero => rfl
    | succ m1 => rfl
  | succ n1 ih =>
    intro m s hn hm
    cases s with
    | nil =>
      cases m with
      | zero => rfl
      | succ m1 => rfl
    | cons c t =>
      cases m with
      | zero => simp at hm
      | succ m1 =>
        rcases h : tryTok "%%%INLINE".data (c :: t) with _ | ⟨ds, rest⟩
        · rw [restoreInlGo_cons_none h, restoreInlGo_cons_none h]
          have ht1 : t.length ≤ n1 := by simp at hn; omega
          have ht2 : t.length ≤ m1 := by simp at hm; omega
          rw [ih ht1 ht2]
        · have hlt := tryTok_length (by decide) h
          simp only [List.length_cons] at hn hm hlt
          have hr1 : rest.length ≤ n1 := by omega
          have hr2 : rest.length ≤ m1 := by omega
          rw [restoreInlGo_cons_some h, restoreInlGo_cons_some h, ih hr1 hr2]

def restoreInl (tbl : List (List Char)) (s : List Char) : List Char :=
  restoreInlGo tbl s.length s

/-- Degraded mode `text.replace(/\n/g, '<br>')` (part_001 line 98). -/
def newlineBr (s : List Char) : List Char :=
  s.foldr (fun c acc => (if c = '\n' then "<br>".data else [c]) ++ acc) []

/-- The external collaborators of `formatMessage`: whether a markdown engine
is present, the (possibly throwing) markdown parse, and the optional
sanitizer.  A throwing `marked.parse` is modelled by `none`; `DOMPurify` being
unavailable (or lacking `sanitize`) by `sanitize = none`. -/
structure Collabs where
  markedAvailable : Bool
  parse : List Char → Option (List Char)
  sanitize : Option (List Char → List Char)

/-- Model of `formatMessage` (part_001 lines 97–147): degraded newline mode
without a markdown engine; otherwise think-tag stripping, display then inline
math masking, markdown parse with sanitize inside the same try/catch (the
catch falls back to the pre-parse masked content), then display and inline
math restoration. -/
def formatMessage (C : Collabs) (text : List Char) : List Char :=
  if C.markedAvailable = false then newlineBr text
  else
    let cleanText := stripThink text
    let dres := maskDisp cleanText 0
    let ires := maskInl dres.1 0
    let html :=
      match C.parse ires.1 with
      | some parsed =>
        match C.sanitize with
        | some sanitizeFn => sanitizeFn parsed
        | none => parsed
      | none => ires.1
    restoreInl ires.2 (restoreDisp dres.2 html)

/-- Identity collaborators: a markdown engine and sanitizer that leave the
text (in particular every placeholder token) intact. -/
def idCollabs : Collabs := ⟨true, fun s => some s, none⟩

/-- Viewport geometry read from `chatHistory` (scrollHeight, scrollTop,
clientHeight), captured at the moment a read resolves. -/
structure Viewport where
  scrollHeight : Int
  scrollTop : Int
  clientHeight : Int
deriving DecidableEq, Repr

/-- The smart-scrolling helper (part_001 lines 254–256):
`(scrollHeight - scrollTop - clientHeight) < 50`. -/
def isAtBottom (v : Viewport) : Bool :=
  v.scrollHeight - v.scrollTop - v.clientHeight < 50

/-- One entry of `conversationHistory`: `{ role, content }`. -/
structure Turn where
  role : List Char
  content : List Char
deriving DecidableEq, Repr

/-- Observable actions of one `sendMessage` turn, in program order. -/
inductive Act where
  | addUserBubble (text : List Char)
  | pushTurn (t : Turn)
  | saveHistory
  | showLoading
  | scrollBottom
  | dispatchRequest
  | removeLoading
  | createAiBubble
  | renderAi (html : List Char)
  | scrollChoice (b : Bool)
  | addSystemBubble (html : List Char)
deriving DecidableEq, Repr

/-- The DOM / transcript state `sendMessage` reads and writes:
`history` is `conversationHistory`; `userBubbles`, `loadingShown`, `aiBubble`
and `systemBubbles` model the relevant `chatHistory` children (the current
turn's AI bubble carries its rendered innerHTML); `trace` records the
observable actions in order. -/
structure ChatState where
  history : List Turn
  userBubbles : List (List Char)
  loadingShown : Bool
  aiBubble : Option (List Char)
  systemBubbles : List (List Char)
  trace : List Act
deriving DecidableEq, Repr

inductive MsgType where
  | user
  | ai
  | system
deriving DecidableEq, Repr

/-- Model of `addMessage` (part_001 lines 149–181): creates a bubble — ai and
system bubbles get `formatMessage` innerHTML, user bubbles plain text — and
unconditionally scrolls to the bottom.  For type `ai` the created bubble
becomes the current turn's streaming bubble (the loop keeps the returned
reference). -/
def addMessage (C : Collabs) (st : ChatState) (text : List Char) (ty : MsgType) : ChatState :=
  match ty with
  | .user =>
    { st with userBubbles := st.userBubbles ++ [text],
              trace := st.trace ++ [Act.addUserBubble text, Act.scrollBottom] }
  | .ai =>
    { st with aiBubble := some (formatMessage C text),
              trace := st.trace ++ [Act.createAiBubble, Act.scrollBottom] }
  | .system =>
    { st with systemBubbles := st.systemBubbles ++ [formatMessage C text],
              trace := st.trace ++ [Act.addSystemBubble (formatMessage C text),
                Act.scrollBottom] }

/-- Result of the read loop: final state, `accumulatedText`, `rawAiResponse`,
and `isFirstMsg`. -/
structure LoopRes where
  st : ChatState
  acc : List Char
  raw : List Char
  first : Bool

/-- One iteration of the streaming read loop of `sendMessage` (part_001
lines 265–303) after a chunk arrived: `v` is the viewport captured when the
read resolved (line 270, before any DOM mutation of this iteration), `acc2`
the accumulated text including this chunk.  On the first chunk the loading
indicator is removed, the AI bubble is created and the scroll decision is
forced to `true` (lines 278–288); the bubble, when present, is re-rendered
with the formatted accumulated text (line 292) and the view scrolls when the
decision is `true` (lines 300–302). -/
def streamStep (C : Collabs) (st : ChatState) (v : Viewport) (acc2 : List Char)
    (first : Bool) : ChatState :=
  let sas0 := isAtBottom v
  let st1 :=
    if first then
      let stA := if st.loadingShown
        then { st with loadingShown := false, trace := st.trace ++ [Act.removeLoading] }
        else st
      addMessage C stA [] .ai
    else st
  let sas := if first then true else sas0
  let st2 :=
    match st1.aiBubble with
    | some _ =>
      { st1 with aiBubble := some (formatMessage C acc2),
                 trace := st1.trace ++ [Act.renderAi (formatMessage C acc2)] }
    | none => st1
  let st3 := { st2 with trace := st2.trace ++ [Act.scrollChoice sas] }
  if sas then { st3 with trace := st3.trace ++ [Act.scrollBottom] } else st3

/-- The streaming read loop (part_001 lines 265–303), one `streamStep` per
delivered chunk; each input element pairs the captured viewport with the
decoded chunk text. -/
def runStream (C : Collabs) : List (Viewport × List Char) → ChatState → List Char →
    List Char → Bool → LoopRes
  | [], st, acc, raw, first => ⟨st, acc, raw, first⟩
  | (v, chunk) :: rest, st, acc, raw, first =>
    runStream C rest (streamStep C st v (acc ++ chunk) first) (acc ++ chunk)
      (raw ++ chunk) false

/-- How the response stream ends: a clean `done` signal, or an exception
(network failure) during a read. -/
inductive Terminal where
  | done
  | fail
deriving DecidableEq, Repr

/-- The system error message of the catch handler (part_001 line 321). -/
def errorMessage : List Char :=
  "Error: Could not connect to Backend. Make sure ".data ++ [Char.ofNat 39] ++
    "start_app.sh".data ++ [Char.ofNat 39] ++ " is running.".data

/-- The catch handler (part_001 lines 318–322): remove the loading indicator
if still attached, then add one system bubble. -/
def catchHandler (C : Collabs) (st : ChatState) : ChatState :=
  let st1 := if st.loadingShown
    then { st with loadingShown := false, trace := st.trace ++ [Act.removeLoading] }
    else st
  addMessage C st1 errorMessage .system

/-- Model of one `sendMessage` call (part_001 lines 186–323).  Inputs: the
collaborators, the state before the call, the text of the input box, whether
the fetch resolved with an ok status (`fetchOk = false` covers both a network
failure of the fetch and a non-ok status, which is thrown at line 245), the
delivered chunk reads, and how the stream ended.  The per-turn local
`aiBubble` starts as `null` (line 262). -/
def sendMessage (C : Collabs) (st0 : ChatState) (inputText : List Char) (fetchOk : Bool)
    (chunks : List (Viewport × List Char)) (term : Terminal) : ChatState :=
  let text := jsTrim inputText
  if text = [] then st0
  else
    let st1 := addMessage C st0 text .user
    let st2 := { st1 with history := st1.history ++ [Turn.mk "user".data text],
                          trace := st1.trace ++ [Act.pushTurn (Turn.mk "user".data text)] }
    let st3 := { st2 with trace := st2.trace ++ [Act.saveHistory] }
    let st4 := { st3 with loadingShown := true, trace := st3.trace ++ [Act.showLoading] }
    let st5 := { st4 with trace := st4.trace ++ [Act.scrollBottom] }
    let st6 := { st5 with trace := st5.trace ++ [Act.dispatchRequest] }
    if fetchOk = false then catchHandler C st6
    else
      let r := runStream C chunks { st6 with aiBubble := none } [] [] true
      match term with
      | .fail => catchHandler C r.st
      | .done =>
        let st7 := { r.st with
          history := r.st.history ++ [Turn.mk "assistant".data r.raw],
          trace := r.st.trace ++ [Act.pushTurn (Turn.mk "assistant".data r.raw)] }
        { st7 with trace := st7.trace ++ [Act.saveHistory] }

/-- Concatenation of the chunk texts of a stream. -/
def joinChunks (chunks : List (Viewport × List Char)) : List Char :=
  (chunks.map Prod.snd).flatten

/-- The recorded auto-scroll decisions of a trace, in order. -/
def scrollChoices (tr : List Act) : List Bool :=
  tr.filterMap fun a =>
    match a with
    | Act.scrollChoice b => some b
    | _ => none

/-- The transcript appends of a trace, in order. -/
def turnPushes (tr : List Act) : List Turn :=
  tr.filterMap fun a =>
    match a with
    | Act.pushTurn t => some t
    | _ => none

theorem scrollChoices_append (a b : List Act) :
    scrollChoices (a ++ b) = scrollChoices a ++ scrollChoices b :=
  List.filterMap_append a b _

theorem turnPushes_append (a b : List Act) :
    turnPushes (a ++ b) = turnPushes a ++ turnPushes b :=
  List.filterMap_append a b _

/-- Case folding cannot produce a character outside the lowercase-letter range
from a different character. -/
theorem lcase_ne_of_ne {c d : Char} (hd : d.toNat < 97 ∨ 122 < d.toNat) (hne : c ≠ d) :
    lcase c ≠ d := by
  unfold lcase
  split
  · next h =>
    intro he
    obtain ⟨h1, h2⟩ := h
    rw [Char.le_def] at h1 h2
    have hA : 65 ≤ c.toNat := h1
    have hZ : c.toNat ≤ 90 := h2
    have hv : (c.toNat + 32).isValidChar := Or.inl (by omega)
    have ht : (Char.ofNat (c.toNat + 32)).toNat = c.toNat + 32 := by
      rw [Char.ofNat, dif_pos hv]
      rfl
    rw [he] at ht
    omega
  · exact hne

/-- A pattern whose head character class is absent from `s` has no
occurrence. -/
theorem splitF_none_head {f : Char → Char} {c0 : Char} {pat' s : List Char}
    (h : ∀ c ∈ s, f c ≠ f c0) : splitF f (c0 :: pat') s = none := by
  rw [splitF_none_iff]
  intro hinf
  have hmem : f c0 ∈ s.map f := hinf.subset (by simp)
  obtain ⟨c, hc, hfc⟩ := List.mem_map.1 hmem
  exact (h c hc) hfc

/-- Characters that cannot participate in any math delimiter, placeholder
token or think tag. -/
def mathSafe (c : Char) : Bool :=
  !(c == '$' || c == '\\' || c == '%' || c == '<' || c == '&')

theorem mathSafe_spec {c : Char} (h : mathSafe c = true) :
    c ≠ '$' ∧ c ≠ '\\' ∧ c ≠ '%' ∧ c ≠ '<' ∧ c ≠ '&' := by
  simp [mathSafe] at h
  exact ⟨h.1.1.1.1, h.1.1.1.2, h.1.1.2, h.1.2, h.2⟩

/-- Math-safe text contains no think tags in either spelling. -/
theorem thinkFree_of_mathSafe {s : List Char} (h : s.all mathSafe = true) :
    ThinkFree s := by
  have hmem : ∀ c ∈ s, mathSafe c = true := by
    intro c hc
    exact List.all_eq_true.1 h c hc
  have hlt : ∀ c ∈ s, lcase c ≠ lcase '<' := by
    intro c hc
    have : lcase '<' = '<' := by decide
    rw [this]
    exact lcase_ne_of_ne (Or.inl (by decide)) (mathSafe_spec (hmem c hc)).2.2.2.1
  have hamp : ∀ c ∈ s, lcase c ≠ lcase '&' := by
    intro c hc
    have : lcase '&' = '&' := by decide
    rw [this]
    exact lcase_ne_of_ne (Or.inl (by decide)) (mathSafe_spec (hmem c hc)).2.2.2.2
  exact ⟨splitF_none_head hlt, splitF_none_head hlt,
    splitF_none_head hamp, splitF_none_head hamp⟩

theorem removeFrom_isInfix (f : Char → Char) (pat s : List Char) :
    removeFrom f pat s <:+: s := by
  rcases h : splitF f pat s with _ | ⟨b, a⟩
  · rw [removeFrom_none h]
  · rw [removeFrom_some h]
    obtain ⟨m, hm, _⟩ := splitF_some_decomp h
    exact ⟨[], m ++ a, by simp [hm]⟩

theorem removeFrom_no_occ {f : Char → Char} {pat : List Char} (hpat : pat ≠ [])
    (s : List Char) : splitF f pat (removeFrom f pat s) = none := by
  rcases h : splitF f pat s with _ | ⟨b, a⟩
  · rw [removeFrom_none h]; exact h
  · rw [removeFrom_some h]
    exact splitF_some_first hpat h

/-- After all four removal passes no raw or escaped start tag remains, in any
character case. -/
theorem stripThink_clean (s : List Char) :
    splitF lcase thinkOpen (stripThink s) = none ∧
    splitF lcase escOpen (stripThink s) = none := by
  unfold stripThink
  have h3 : splitF lcase thinkOpen
      (jsTrim (removeFrom lcase thinkOpen
        (jsTrim (removePairs lcase escOpen escClose
          (jsTrim (removePairs lcase thinkOpen thinkClose s)))))) = none :=
    splitF_none_isInfix (removeFrom_no_occ (by decide) _) (jsTrim_isInfix _)
  refine ⟨?_, ?_⟩
  · exact splitF_none_isInfix (splitF_none_isInfix h3 (removeFrom_isInfix _ _ _))
      (jsTrim_isInfix _)
  · exact splitF_none_isInfix (removeFrom_no_occ (by decide) _) (jsTrim_isInfix _)

/-- The pattern matches itself at position zero. -/
theorem splitF_self {f : Char → Char} {pat : List Char} (hne : pat ≠ []) (tail : List Char) :
    splitF f pat (pat ++ tail) = some ([], tail) := by
  rcases pat with _ | ⟨c0, pat0⟩
  · exact absurd rfl hne
  · rw [List.cons_append]
    rw [splitF_cons_pos (by
      rw [← List.cons_append]
      exact prefAt_self_append f (c0 :: pat0) tail)]
    have hd : (c0 :: (pat0 ++ tail)).drop (c0 :: pat0).length = tail := by
      rw [List.length_cons, List.drop_succ_cons]
      exact List.drop_left pat0 tail
    rw [hd]

/-- When the text before the literal avoids the pattern head, the literal is
the first occurrence. -/
theorem splitF_headfree_self (pat0 tail : List Char) {f : Char → Char} {c0 : Char}
    {x : List Char} (h : ∀ c ∈ x, f c ≠ f c0) :
    splitF f (c0 :: pat0) (x ++ ((c0 :: pat0) ++ tail)) = some (x, tail) := by
  rw [splitF_append_headfree h, splitF_self (by simp) tail]
  simp

theorem matchDD_none_head {c : Char} {t : List Char} (h : c ≠ '$') :
    matchDD (c :: t) = none := by
  rcases t with _ | ⟨c2, _ | ⟨c3, t3⟩⟩
  · rfl
  · rfl
  · rw [matchDD, if_neg (fun hg => h hg.1)]

theorem matchDD_none_snd {c1 c2 : Char} {t : List Char} (h : c2 ≠ '$') :
    matchDD (c1 :: c2 :: t) = none := by
  rcases t with _ | ⟨c3, t3⟩
  · rfl
  · rw [matchDD, if_neg (fun hg => h hg.2)]

theorem matchBrk_none_head {c : Char} {t : List Char} (h : c ≠ '\\') :
    matchBrk (c :: t) = none := by
  rcases t with _ | ⟨c2, _ | ⟨c3, t3⟩⟩
  · rfl
  · rfl
  · rw [matchBrk, if_neg (fun hg => h hg.1)]

theorem matchBrk_none_snd {c1 c2 : Char} {t : List Char} (h : c2 ≠ '[') :
    matchBrk (c1 :: c2 :: t) = none := by
  rcases t with _ | ⟨c3, t3⟩
  · rfl
  · rw [matchBrk, if_neg (fun hg => h hg.2)]

theorem matchDisp_none_head {c : Char} {t : List Char} (h1 : c ≠ '$') (h2 : c ≠ '\\') :
    matchDisp (c :: t) = none := by
  unfold matchDisp
  rw [matchDD_none_head h1, matchBrk_none_head h2]

theorem matchSD_none_head {c : Char} {t : List Char} (h : c ≠ '$') :
    matchSD (c :: t) = none := by
  rcases t with _ | ⟨c2, t2⟩
  · rfl
  · rw [matchSD, if_neg (fun hg => h hg.1)]

theorem matchParen_none_head {c : Char} {t : List Char} (h : c ≠ '\\') :
    matchParen (c :: t) = none := by
  rcases t with _ | ⟨c2, _ | ⟨c3, t3⟩⟩
  · rfl
  · rfl
  · rw [matchParen, if_neg (fun hg => h hg.1)]

theorem matchParen_none_snd {c1 c2 : Char} {t : List Char} (h : c2 ≠ '(') :
    matchParen (c1 :: c2 :: t) = none := by
  rcases t with _ | ⟨c3, t3⟩
  · rfl
  · rw [matchParen, if_neg (fun hg => h hg.2)]

theorem matchInl_none_head {c : Char} {t : List Char} (h1 : c ≠ '$') (h2 : c ≠ '\\') :
    matchInl (c :: t) = none := by
  unfold matchInl
  rw [matchSD_none_head h1, matchParen_none_head h2]

/-- The lazy `\$\$…\$\$` match at an explicit span whose body avoids `$`. -/
theorem matchDD_at {T s2 : List Char} (hTne : T ≠ []) (hTd : ∀ c ∈ T, c ≠ '$') :
    matchDD ('$' :: '$' :: (T ++ '$' :: '$' :: s2)) = some (T, s2) := by
  rcases T with _ | ⟨c, T2⟩
  · exact absurd rfl hTne
  · have h9 : ∀ d ∈ T2, id d ≠ id '$' := by
      intro d hd
      simpa using hTd d (by simp [hd])
    have hsp : splitF id ['$', '$'] (T2 ++ '$' :: '$' :: s2) = some (T2, s2) := by
      have := splitF_headfree_self ['$'] s2 h9
      simpa using this
    rw [List.cons_append, matchDD, if_pos ⟨rfl, rfl⟩]
    simp only [hsp]

theorem matchBrk_at {T s2 : List Char} (hTne : T ≠ []) (hTb : ∀ c ∈ T, c ≠ '\\') :
    matchBrk ('\\' :: '[' :: (T ++ '\\' :: ']' :: s2)) = some (T, s2) := by
  rcases T with _ | ⟨c, T2⟩
  · exact absurd rfl hTne
  · have h9 : ∀ d ∈ T2, id d ≠ id '\\' := by
      intro d hd
      simpa using hTb d (by simp [hd])
    have hsp : splitF id ['\\', ']'] (T2 ++ '\\' :: ']' :: s2) = some (T2, s2) := by
      have := splitF_headfree_self [']'] s2 h9
      simpa using this
    rw [List.cons_append, matchBrk, if_pos ⟨rfl, rfl⟩]
    simp only [hsp]

theorem matchDisp_DD_at {T s2 : List Char} (hTne : T ≠ []) (hTd : ∀ c ∈ T, c ≠ '$') :
    matchDisp ('$' :: '$' :: (T ++ '$' :: '$' :: s2)) = some (T, s2) := by
  unfold matchDisp
  rw [matchDD_at hTne hTd]

theorem matchDisp_Brk_at {T s2 : List Char} (hTne : T ≠ []) (hTb : ∀ c ∈ T, c ≠ '\\') :
    matchDisp ('\\' :: '[' :: (T ++ '\\' :: ']' :: s2)) = some (T, s2) := by
  unfold matchDisp
  rw [matchDD_none_head (by decide), matchBrk_at hTne hTb]

/-- The lazy `\$…\$` inline match at an explicit span. -/
theorem matchSD_at {T s2 : List Char} (hTne : T ≠ []) (hTd : ∀ c ∈ T, c ≠ '$')
    (hTn : '\n' ∉ T) :
    matchSD ('$' :: (T ++ '$' :: s2)) = some (T, s2) := by
  rcases T with _ | ⟨c, T2⟩
  · exact absurd rfl hTne
  · have hg : ('$' : Char) = '$' ∧ ¬(c = '$' ∨ c = '\n') := by
      refine ⟨rfl, fun hor => ?_⟩
      rcases hor with h | h
      · exact hTd c (by simp) h
      · exact hTn (by rw [← h]; exact List.mem_cons_self c T2)
    have h9 : ∀ d ∈ T2, id d ≠ id '$' := by
      intro d hd
      simpa using hTd d (by simp [hd])
    have hsp : splitF id ['$'] (T2 ++ '$' :: s2) = some (T2, s2) := by
      have := splitF_headfree_self [] s2 h9
      simpa using this
    rw [List.cons_append, matchSD, if_pos hg]
    simp only [hsp]
    rw [if_neg hTn]

theorem matchParen_at {T s2 : List Char} (hTne : T ≠ []) (hTb : ∀ c ∈ T, c ≠ '\\') :
    matchParen ('\\' :: '(' :: (T ++ '\\' :: ')' :: s2)) = some (T, s2) := by
  rcases T with _ | ⟨c, T2⟩
  · exact absurd rfl hTne
  · have h9 : ∀ d ∈ T2, id d ≠ id '\\' := by
      intro d hd
      simpa using hTb d (by simp [hd])
    have hsp : splitF id ['\\', ')'] (T2 ++ '\\' :: ')' :: s2) = some (T2, s2) := by
      have := splitF_headfree_self [')'] s2 h9
      simpa using this
    rw [List.cons_append, matchParen, if_pos ⟨rfl, rfl⟩]
    simp only [hsp]

theorem matchInl_SD_at {T s2 : List Char} (hTne : T ≠ []) (hTd : ∀ c ∈ T, c ≠ '$')
    (hTn : '\n' ∉ T) :
    matchInl ('$' :: (T ++ '$' :: s2)) = some (T, s2) := by
  unfold matchInl
  rw [matchSD_at hTne hTd hTn]

theorem matchInl_Paren_at {T s2 : List Char} (hTne : T ≠ []) (hTb : ∀ c ∈ T, c ≠ '\\') :
    matchInl ('\\' :: '(' :: (T ++ '\\' :: ')' :: s2)) = some (T, s2) := by
  unfold matchInl
  rw [matchSD_none_head (by decide), matchParen_at hTne hTb]

theorem all_mem_append {P : Char → Prop} {a b : List Char}
    (ha : ∀ c ∈ a, P c) (hb : ∀ c ∈ b, P c) : ∀ c ∈ a ++ b, P c := by
  intro c hc
  rcases List.mem_append.1 hc with h | h
  · exact ha c h
  · exact hb c h

theorem all_mem_trimL {P : Char → Prop} {s : List Char} (h : ∀ c ∈ s, P c) :
    ∀ c ∈ trimL s, P c :=
  fun c hc => h c ((trimL_suffix s).subset hc)

theorem all_mem_trimR {P : Char → Prop} {s : List Char} (h : ∀ c ∈ s, P c) :
    ∀ c ∈ trimR s, P c :=
  fun c hc => h c ((trimR_pref s).subset hc)

theorem all_mem_jsTrim {P : Char → Prop} {s : List Char} (h : ∀ c ∈ s, P c) :
    ∀ c ∈ jsTrim s, P c :=
  fun c hc => h c ((jsTrim_isInfix s).subset hc)

/-- A suffix of an appended pair either lies in the right part or straddles
with a nonempty suffix of the left part. -/
theorem suffix_append_cases {α : Type} {r A B : List α} (h : r <:+ A ++ B) :
    r <:+ B ∨ ∃ x, x <:+ A ∧ x ≠ [] ∧ r = x ++ B := by
  obtain ⟨w, hw⟩ := h
  rcases List.append_eq_append_iff.1 hw with ⟨a2, ha, hr⟩ | ⟨c2, _, hB⟩
  · rcases a2 with _ | ⟨d, a2t⟩
    · left
      rw [hr, List.nil_append]
    · right
      exact ⟨d :: a2t, ⟨w, ha.symm⟩, by simp, hr⟩
  · left
    exact ⟨c2, hB.symm⟩

theorem maskDisp_nil (k : Nat) : maskDisp [] k = ([], []) := rfl

theorem maskDisp_nomatch {c : Char} {t : List Char} (k : Nat)
    (h : matchDisp (c :: t) = none) :
    maskDisp (c :: t) k = (c :: (maskDisp t k).1, (maskDisp t k).2) := by
  unfold maskDisp
  rw [List.length_cons, maskDispGo_cons_none h]

theorem maskDisp_match {s tex rest : List Char} (k : Nat) (hs : s ≠ [])
    (h : matchDisp s = some (tex, rest)) :
    maskDisp s k = (phD k ++ (maskDisp rest (k + 1)).1,
      jsTrim tex :: (maskDisp rest (k + 1)).2) := by
  rcases s with _ | ⟨c, t⟩
  · exact absurd rfl hs
  · have hlt := matchDisp_length h
    simp only [List.length_cons] at hlt
    unfold maskDisp
    rw [List.length_cons, maskDispGo_cons_some h,
      maskDispGo_fuel t.length (by omega) (le_refl rest.length)]

theorem maskDisp_id {s : List Char} (k : Nat)
    (h : ∀ r, r <:+ s → r ≠ [] → matchDisp r = none) :
    maskDisp s k = (s, []) := by
  induction s with
  | nil => rfl
  | cons c t ih =>
    rw [maskDisp_nomatch k (h (c :: t) (List.suffix_refl _) (by simp)),
      ih (fun r hr hne => h r (hr.trans (List.suffix_cons c t)) hne)]

theorem maskDisp_append {p s : List Char} (k : Nat)
    (h : ∀ r, r <:+ p → r ≠ [] → matchDisp (r ++ s) = none) :
    maskDisp (p ++ s) k = (p ++ (maskDisp s k).1, (maskDisp s k).2) := by
  induction p with
  | nil => simp
  | cons c p2 ih =>
    have h1 : matchDisp (c :: (p2 ++ s)) = none := by
      have := h (c :: p2) (List.suffix_refl _) (by simp)
      rwa [List.cons_append] at this
    rw [List.cons_append, maskDisp_nomatch k h1,
      ih (fun r hr hne => h r (hr.trans (List.suffix_cons c p2)) hne)]
    simp

theorem maskInl_nil (k : Nat) : maskInl [] k = ([], []) := rfl

theorem maskInl_nomatch {c : Char} {t : List Char} (k : Nat)
    (h : matchInl (c :: t) = none) :
    maskInl (c :: t) k = (c :: (maskInl t k).1, (maskInl t k).2) := by
  unfold maskInl
  rw [List.length_cons, maskInlGo_cons_none h]

theorem maskInl_match {s tex rest : List Char} (k : Nat) (hs : s ≠ [])
    (h : matchInl s = some (tex, rest)) :
    maskInl s k = (phI k ++ (maskInl rest (k + 1)).1,
      jsTrim tex :: (maskInl rest (k + 1)).2) := by
  rcases s with _ | ⟨c, t⟩
  · exact absurd rfl hs
  · have hlt := matchInl_length h
    simp only [List.length_cons] at hlt
    unfold maskInl
    rw [List.length_cons, maskInlGo_cons_some h,
      maskInlGo_fuel t.length (by omega) (le_refl rest.length)]

theorem maskInl_id {s : List Char} (k : Nat)
    (h : ∀ r, r <:+ s → r ≠ [] → matchInl r = none) :
    maskInl s k = (s, []) := by
  induction s with
  | nil => rfl
  | cons c t ih =>
    rw [maskInl_nomatch k (h (c :: t) (List.suffix_refl _) (by simp)),
      ih (fun r hr hne => h r (hr.trans (List.suffix_cons c t)) hne)]

theorem maskInl_append {p s : List Char} (k : Nat)
    (h : ∀ r, r <:+ p → r ≠ [] → matchInl (r ++ s) = none) :
    maskInl (p ++ s) k = (p ++ (maskInl s k).1, (maskInl s k).2) := by
  induction p with
  | nil => simp
  | cons c p2 ih =>
    have h1 : matchInl (c :: (p2 ++ s)) = none := by
      have := h (c :: p2) (List.suffix_refl _) (by simp)
      rwa [List.cons_append] at this
    rw [List.cons_append, maskInl_nomatch k h1,
      ih (fun r hr hne => h r (hr.trans (List.suffix_cons c p2)) hne)]
    simp

/-- No display alternative can match anywhere inside text whose characters
avoid both delimiter-opening characters. -/
theorem matchDisp_none_suffix {s : List Char} (hs : ∀ c ∈ s, c ≠ '$' ∧ c ≠ '\\') :
    ∀ r, r <:+ s → r ≠ [] → matchDisp r = none := by
  intro r hr hne
  rcases r with _ | ⟨c, t⟩
  · exact absurd rfl hne
  · have := hs c (hr.subset (by simp))
    exact matchDisp_none_head this.1 this.2

theorem matchInl_none_suffix {s : List Char} (hs : ∀ c ∈ s, c ≠ '$' ∧ c ≠ '\\') :
    ∀ r, r <:+ s → r ≠ [] → matchInl r = none := by
  intro r hr hne
  rcases r with _ | ⟨c, t⟩
  · exact absurd rfl hne
  · have := hs c (hr.subset (by simp))
    exact matchInl_none_head this.1 this.2

/-- A restoration token must start with the tag's first character. -/
theorem tryTok_none_head {c0 : Char} {tg : List Char} {c : Char} {t : List Char}
    (h : c ≠ c0) : tryTok (c0 :: tg) (c :: t) = none := by
  have hnp : (c0 :: tg).isPrefixOf (c :: t) = false := by
    rcases hb : (c0 :: tg).isPrefixOf (c :: t) with _ | _
    · rfl
    · have hpre := List.isPrefixOf_iff_prefix.1 hb
      exact absurd (List.cons_prefix_cons.1 hpre).1.symm h
  unfold tryTok
  rw [hnp]
  simp

theorem tryTokD_none_head {c : Char} {t : List Char} (h : c ≠ '%') :
    tryTok "%%%DISPLAY".data (c :: t) = none := by
  have he : "%%%DISPLAY".data = '%' :: "%%DISPLAY".data := rfl
  rw [he, tryTok_none_head h]

theorem tryTokI_none_head {c : Char} {t : List Char} (h : c ≠ '%') :
    tryTok "%%%INLINE".data (c :: t) = none := by
  have he : "%%%INLINE".data = '%' :: "%%INLINE".data := rfl
  rw [he, tryTok_none_head h]

theorem tryTokD_none_all {s : List Char} (hs : ∀ c ∈ s, c ≠ '%') :
    ∀ r, r <:+ s → r ≠ [] → tryTok "%%%DISPLAY".data r = none := by
  intro r hr hne
  rcases r with _ | ⟨c, t⟩
  · exact absurd rfl hne
  · exact tryTokD_none_head (hs c (hr.subset (by simp)))

theorem tryTokI_none_all {s : List Char} (hs : ∀ c ∈ s, c ≠ '%') :
    ∀ r, r <:+ s → r ≠ [] → tryTok "%%%INLINE".data r = none := by
  intro r hr hne
  rcases r with _ | ⟨c, t⟩
  · exact absurd rfl hne
  · exact tryTokI_none_head (hs c (hr.subset (by simp)))

/-- The display restoration token matches exactly at its own placeholder. -/
theorem tryTokD_phD0 (rest : List Char) :
    tryTok "%%%DISPLAY".data (phD 0 ++ rest) = some (['0'], rest) := by
  have h0 : phD 0 ++ rest =
      '%' :: '%' :: '%' :: 'D' :: 'I' :: 'S' :: 'P' :: 'L' :: 'A' :: 'Y' :: '0' :: '%' :: '%' :: '%' :: rest := rfl
  rw [h0]
  simp [tryTok, List.isPrefixOf, List.takeWhile,
    show Char.isDigit '0' = true from rfl, show Char.isDigit '%' = false from rfl]

theorem tryTokI_phI0 (rest : List Char) :
    tryTok "%%%INLINE".data (phI 0 ++ rest) = some (['0'], rest) := by
  have h0 : phI 0 ++ rest =
      '%' :: '%' :: '%' :: 'I' :: 'N' :: 'L' :: 'I' :: 'N' :: 'E' :: '0' :: '%' :: '%' :: '%' :: rest := rfl
  rw [h0]
  simp [tryTok, List.isPrefixOf, List.takeWhile,
    show Char.isDigit '0' = true from rfl, show Char.isDigit '%' = false from rfl]

theorem lookupTex_single (x : List Char) : lookupTex [x] ['0'] = x := rfl

theorem restoreDisp_nil (tbl : List (List Char)) : restoreDisp tbl [] = [] := rfl

theorem restoreDisp_nomatch {tbl : List (List Char)} {c : Char} {t : List Char}
    (h : tryTok "%%%DISPLAY".data (c :: t) = none) :
    restoreDisp tbl (c :: t) = c :: restoreDisp tbl t := by
  unfold restoreDisp
  rw [List.length_cons, restoreDispGo_cons_none h]

theorem restoreDisp_matchTok {tbl : List (List Char)} {s ds rest : List Char}
    (hs : s ≠ []) (h : tryTok "%%%DISPLAY".data s = some (ds, rest)) :
    restoreDisp tbl s =
      "$$".data ++ lookupTex tbl ds ++ "$$".data ++ restoreDisp tbl rest := by
  rcases s with _ | ⟨c, t⟩
  · exact absurd rfl hs
  · have hlt := tryTok_length (by decide) h
    simp only [List.length_cons] at hlt
    unfold restoreDisp
    rw [List.length_cons, restoreDispGo_cons_some h,
      restoreDispGo_fuel t.length (by omega) (le_refl rest.length)]

theorem restoreDisp_id {tbl : List (List Char)} {s : List Char}
    (h : ∀ r, r <:+ s → r ≠ [] → tryTok "%%%DISPLAY".data r = none) :
    restoreDisp tbl s = s := by
  induction s with
  | nil => rfl
  | cons c t ih =>
    rw [restoreDisp_nomatch (h (c :: t) (List.suffix_refl _) (by simp)),
      ih (fun r hr hne => h r (hr.trans (List.suffix_cons c t)) hne)]

theorem restoreDisp_append {tbl : List (List Char)} {p s : List Char}
    (h : ∀ r, r <:+ p → r ≠ [] → tryTok "%%%DISPLAY".data (r ++ s) = none) :
    restoreDisp tbl (p ++ s) = p ++ restoreDisp tbl s := by
  induction p with
  | nil => simp
  | cons c p2 ih =>
    have h1 : tryTok "%%%DISPLAY".data (c :: (p2 ++ s)) = none := by
      have := h (c :: p2) (List.suffix_refl _) (by simp)
      rwa [List.cons_append] at this
    rw [List.cons_append, restoreDisp_nomatch h1,
      ih (fun r hr hne => h r (hr.trans (List.suffix_cons c p2)) hne)]
    simp

theorem restoreInl_nil (tbl : List (List Char)) : restoreInl tbl [] = [] := rfl

theorem restoreInl_nomatch {tbl : List (List Char)} {c : Char} {t : List Char}
    (h : tryTok "%%%INLINE".data (c :: t) = none) :
    restoreInl tbl (c :: t) = c :: restoreInl tbl t := by
  unfold restoreInl
  rw [List.length_cons, restoreInlGo_cons_none h]

theorem restoreInl_matchTok {tbl : List (List Char)} {s ds rest : List Char}
    (hs : s ≠ []) (h : tryTok "%%%INLINE".data s = some (ds, rest)) :
    restoreInl tbl s =
      "\\(".data ++ lookupTex tbl ds ++ "\\)".data ++ restoreInl tbl rest := by
  rcases s with _ | ⟨c, t⟩
  · exact absurd rfl hs
  · have hlt := tryTok_length (by decide) h
    simp only [List.length_cons] at hlt
    unfold restoreInl
    rw [List.length_cons, restoreInlGo_cons_some h,
      restoreInlGo_fuel t.length (by omega) (le_refl rest.length)]

theorem restoreInl_id {tbl : List (List Char)} {s : List Char}
    (h : ∀ r, r <:+ s → r ≠ [] → tryTok "%%%INLINE".data r = none) :
    restoreInl tbl s = s := by
  induction s with
  | nil => rfl
  | cons c t ih =>
    rw [restoreInl_nomatch (h (c :: t) (List.suffix_refl _) (by simp)),
      ih (fun r hr hne => h r (hr.trans (List.suffix_cons c t)) hne)]

theorem restoreInl_append {tbl : List (List Char)} {p s : List Char}
    (h : ∀ r, r <:+ p → r ≠ [] → tryTok "%%%INLINE".data (r ++ s) = none) :
    restoreInl tbl (p ++ s) = p ++ restoreInl tbl s := by
  induction p with
  | nil => simp
  | cons c p2 ih =>
    have h1 : tryTok "%%%INLINE".data (c :: (p2 ++ s)) = none := by
      have := h (c :: p2) (List.suffix_refl _) (by simp)
      rwa [List.cons_append] at this
    rw [List.cons_append, restoreInl_nomatch h1,
      ih (fun r hr hne => h r (hr.trans (List.suffix_cons c p2)) hne)]
    simp

/-- A successful token match forces a `%` after the digit group. -/
theorem tryTok_some_pct {tag s ds rest : List Char}
    (h : tryTok tag s = some (ds, rest)) : '%' ∈ s.drop tag.length := by
  unfold tryTok at h
  by_cases h1 : tag.isPrefixOf s
  · rw [if_pos h1] at h
    by_cases h2 : ((s.drop tag.length).takeWhile Char.isDigit).isEmpty
    · rw [if_pos h2] at h
      exact absurd h (by simp)
    · rw [if_neg h2] at h
      by_cases h3 : ("%%%".data).isPrefixOf
          ((s.drop tag.length).drop ((s.drop tag.length).takeWhile Char.isDigit).length)
      · have hpre := List.isPrefixOf_iff_prefix.1 h3
        have hmem : '%' ∈ (s.drop tag.length).drop
            ((s.drop tag.length).takeWhile Char.isDigit).length :=
          hpre.subset (show '%' ∈ "%%%".data by decide)
        exact (List.drop_subset _ _) hmem
      · rw [if_neg h3] at h
        exact absurd h (by simp)
  · rw [if_neg h1] at h
    exact absurd h (by simp)

/-- A text of at most three characters followed by `%`-free text carries no
display token. -/
theorem tryTokD_none_pct_tail {x s2 : List Char} (hx : x.length ≤ 3)
    (hs : ∀ c ∈ s2, c ≠ '%') : tryTok "%%%DISPLAY".data (x ++ s2) = none := by
  rcases ht : tryTok "%%%DISPLAY".data (x ++ s2) with _ | ⟨ds, rest⟩
  · rfl
  · exfalso
    have hmem := tryTok_some_pct ht
    have hlen : ("%%%DISPLAY".data).length = 10 := by decide
    rw [hlen, List.drop_append_eq_append_drop] at hmem
    rcases List.mem_append.1 hmem with hmm | hmm
    · have hnil : x.drop 10 = [] := List.drop_eq_nil_of_le (by omega)
      rw [hnil] at hmm
      exact absurd hmm (by simp)
    · exact hs '%' ((List.drop_subset _ _) hmm) rfl

/-- No display token can start inside the inline placeholder or straddle its
boundary into `%`-free text. -/
theorem tryTokD_none_phI0_suffix {x s2 : List Char} (hx : x <:+ phI 0)
    (hs : ∀ c ∈ s2, c ≠ '%') : tryTok "%%%DISPLAY".data (x ++ s2) = none := by
  have hphi : phI 0 = '%' :: '%' :: '%' :: 'I' :: 'N' :: 'L' :: 'I' :: 'N' :: 'E' :: '0' :: '%' :: '%' :: '%' :: [] := rfl
  rw [hphi] at hx
  rcases List.suffix_cons_iff.1 hx with h | hx
  · rw [h]; rfl
  rcases List.suffix_cons_iff.1 hx with h | hx
  · rw [h]; rfl
  rcases List.suffix_cons_iff.1 hx with h | hx
  · rw [h]; rfl
  rcases List.suffix_cons_iff.1 hx with h | hx
  · rw [h]; rfl
  rcases List.suffix_cons_iff.1 hx with h | hx
  · rw [h]; rfl
  rcases List.suffix_cons_iff.1 hx with h | hx
  · rw [h]; rfl
  rcases List.suffix_cons_iff.1 hx with h | hx
  · rw [h]; rfl
  rcases List.suffix_cons_iff.1 hx with h | hx
  · rw [h]; rfl
  rcases List.suffix_cons_iff.1 hx with h | hx
  · rw [h]; rfl
  rcases List.suffix_cons_iff.1 hx with h | hx
  · rw [h]; rfl
  rcases List.suffix_cons_iff.1 hx with h | hx
  · rw [h]
    exact tryTokD_none_pct_tail (by decide) hs
  rcases List.suffix_cons_iff.1 hx with h | hx
  · rw [h]
    exact tryTokD_none_pct_tail (by decide) hs
  rcases List.suffix_cons_iff.1 hx with h | hx
  · rw [h]
    exact tryTokD_none_pct_tail (by decide) hs
  have hxe : x = [] := List.suffix_nil.1 hx
  rw [hxe]
  exact tryTokD_none_pct_tail (by decide) hs

theorem all_mem_cons {P : Char → Prop} {c : Char} {t : List Char}
    (hc : P c) (ht : ∀ d ∈ t, P d) : ∀ d ∈ c :: t, P d := by
  intro d hd
  rcases List.mem_cons.1 hd with h | h
  · rw [h]
    exact hc
  · exact ht d h

/-- Text with no `<` and no `&` contains no think tag in either spelling. -/
theorem thinkFree_of_no_tag {s : List Char} (h : ∀ c ∈ s, c ≠ '<' ∧ c ≠ '&') :
    ThinkFree s := by
  have hlt : ∀ c ∈ s, lcase c ≠ lcase '<' := by
    intro c hc
    have he : lcase '<' = '<' := by decide
    rw [he]
    exact lcase_ne_of_ne (Or.inl (by decide)) (h c hc).1
  have hamp : ∀ c ∈ s, lcase c ≠ lcase '&' := by
    intro c hc
    have he : lcase '&' = '&' := by decide
    rw [he]
    exact lcase_ne_of_ne (Or.inl (by decide)) (h c hc).2
  exact ⟨splitF_none_head hlt, splitF_none_head hlt,
    splitF_none_head hamp, splitF_none_head hamp⟩

theorem matchDisp_none_across {p2 s2 : List Char} (hp2 : ∀ c ∈ p2, c ≠ '$' ∧ c ≠ '\\') :
    ∀ r, r <:+ p2 → r ≠ [] → matchDisp (r ++ s2) = none := by
  intro r hr hne
  rcases r with _ | ⟨c, t⟩
  · exact absurd rfl hne
  · rw [List.cons_append]
    have hcc := hp2 c (hr.subset (by simp))
    exact matchDisp_none_head hcc.1 hcc.2

theorem matchInl_none_across {p2 s2 : List Char} (hp2 : ∀ c ∈ p2, c ≠ '$' ∧ c ≠ '\\') :
    ∀ r, r <:+ p2 → r ≠ [] → matchInl (r ++ s2) = none := by
  intro r hr hne
  rcases r with _ | ⟨c, t⟩
  · exact absurd rfl hne
  · rw [List.cons_append]
    have hcc := hp2 c (hr.subset (by simp))
    exact matchInl_none_head hcc.1 hcc.2

theorem tryTokD_none_across {p2 s2 : List Char} (hp2 : ∀ c ∈ p2, c ≠ '%') :
    ∀ r, r <:+ p2 → r ≠ [] → tryTok "%%%DISPLAY".data (r ++ s2) = none := by
  intro r hr hne
  rcases r with _ | ⟨c, t⟩
  · exact absurd rfl hne
  · rw [List.cons_append]
    exact tryTokD_none_head (hp2 c (hr.subset (by simp)))

theorem tryTokI_none_across {p2 s2 : List Char} (hp2 : ∀ c ∈ p2, c ≠ '%') :
    ∀ r, r <:+ p2 → r ≠ [] → tryTok "%%%INLINE".data (r ++ s2) = none := by
  intro r hr hne
  rcases r with _ | ⟨c, t⟩
  · exact absurd rfl hne
  · rw [List.cons_append]
    exact tryTokI_none_head (hp2 c (hr.subset (by simp)))

/-- No display alternative matches anywhere in a single-dollar inline span
embedded in delimiter-free text. -/
theorem matchDisp_none_sd {p2 T s2 : List Char}
    (hp2 : ∀ c ∈ p2, c ≠ '$' ∧ c ≠ '\\') (hT : ∀ c ∈ T, c ≠ '$' ∧ c ≠ '\\')
    (hs2 : ∀ c ∈ s2, c ≠ '$' ∧ c ≠ '\\') (hTne : T ≠ []) :
    ∀ r, r <:+ p2 ++ ('$' :: (T ++ '$' :: s2)) → r ≠ [] → matchDisp r = none := by
  intro r hr hne
  rcases suffix_append_cases hr with hr | ⟨x, hx, hxne, hre⟩
  · rcases List.suffix_cons_iff.1 hr with hr | hr
    · rw [hr]
      rcases T with _ | ⟨c, T2⟩
      · exact absurd rfl hTne
      · rw [List.cons_append]
        unfold matchDisp
        rw [matchDD_none_snd (hT c (by simp)).1, matchBrk_none_head (by decide)]
    · rcases suffix_append_cases hr with hr | ⟨x, hx, hxne, hre⟩
      · rcases List.suffix_cons_iff.1 hr with hr | hr
        · rw [hr]
          rcases s2 with _ | ⟨c, s3⟩
          · rfl
          · unfold matchDisp
            rw [matchDD_none_snd (hs2 c (by simp)).1, matchBrk_none_head (by decide)]
        · exact matchDisp_none_suffix hs2 r hr hne
      · rcases x with _ | ⟨c, t⟩
        · exact absurd rfl hxne
        · rw [hre, List.cons_append]
          have hcc := hT c (hx.subset (by simp))
          exact matchDisp_none_head hcc.1 hcc.2
  · rcases x with _ | ⟨c, t⟩
    · exact absurd rfl hxne
    · rw [hre, List.cons_append]
      have hcc := hp2 c (hx.subset (by simp))
      exact matchDisp_none_head hcc.1 hcc.2

/-- No display alternative matches anywhere in a backslash-paren inline span
embedded in delimiter-free text. -/
theorem matchDisp_none_paren {p2 T s2 : List Char}
    (hp2 : ∀ c ∈ p2, c ≠ '$' ∧ c ≠ '\\') (hT : ∀ c ∈ T, c ≠ '$' ∧ c ≠ '\\')
    (hs2 : ∀ c ∈ s2, c ≠ '$' ∧ c ≠ '\\') :
    ∀ r, r <:+ p2 ++ ('\\' :: '(' :: (T ++ '\\' :: ')' :: s2)) → r ≠ [] →
      matchDisp r = none := by
  intro r hr hne
  rcases suffix_append_cases hr with hr | ⟨x, hx, hxne, hre⟩
  · rcases List.suffix_cons_iff.1 hr with hr | hr
    · rw [hr]
      unfold matchDisp
      rw [matchDD_none_head (by decide), matchBrk_none_snd (by decide)]
    · rcases List.suffix_cons_iff.1 hr with hr | hr
      · rw [hr]
        exact matchDisp_none_head (by decide) (by decide)
      · rcases suffix_append_cases hr with hr | ⟨x, hx, hxne, hre⟩
        · rcases List.suffix_cons_iff.1 hr with hr | hr
          · rw [hr]
            unfold matchDisp
            rw [matchDD_none_head (by decide), matchBrk_none_snd (by decide)]
          · rcases List.suffix_cons_iff.1 hr with hr | hr
            · rw [hr]
              exact matchDisp_none_head (by decide) (by decide)
            · exact matchDisp_none_suffix hs2 r hr hne
        · rcases x with _ | ⟨c, t⟩
          · exact absurd rfl hxne
          · rw [hre, List.cons_append]
            have hcc := hT c (hx.subset (by simp))
            exact matchDisp_none_head hcc.1 hcc.2
  · rcases x with _ | ⟨c, t⟩
    · exact absurd rfl hxne
    · rw [hre, List.cons_append]
      have hcc := hp2 c (hx.subset (by simp))
      exact matchDisp_none_head hcc.1 hcc.2

/-- With the identity collaborators the formatter is the masked/restored
pipeline with no markup change. -/
theorem formatMessage_id_eq (text : List Char) :
    formatMessage idCollabs text =
      restoreInl (maskInl (maskDisp (stripThink text) 0).1 0).2
        (restoreDisp (maskDisp (stripThink text) 0).2
          (maskInl (maskDisp (stripThink text) 0).1 0).1) := by
  rw [formatMessage]
  rw [if_neg (by simp [idCollabs])]
  simp only [idCollabs]

/-- Full pipeline on a double-dollar display span surrounded by math-safe
text: the span is masked, restored as `$$ … $$` with trimmed TeX, and the
whole text is trimmed. -/
theorem formatMessage_DD {p T s : List Char}
    (hp : ∀ c ∈ p, mathSafe c = true) (hT : ∀ c ∈ T, mathSafe c = true)
    (hs : ∀ c ∈ s, mathSafe c = true) (hTne : T ≠ []) :
    formatMessage idCollabs (p ++ ('$' :: '$' :: (T ++ '$' :: '$' :: s)))
      = trimL p ++ ('$' :: '$' :: (jsTrim T ++ '$' :: '$' :: trimR s)) := by
  have hpD : ∀ c ∈ trimL p, c ≠ '$' ∧ c ≠ '\\' := all_mem_trimL (fun c hc =>
    ⟨(mathSafe_spec (hp c hc)).1, (mathSafe_spec (hp c hc)).2.1⟩)
  have hTD : ∀ c ∈ T, c ≠ '$' := fun c hc => (mathSafe_spec (hT c hc)).1
  have hsD : ∀ c ∈ trimR s, c ≠ '$' ∧ c ≠ '\\' := all_mem_trimR (fun c hc =>
    ⟨(mathSafe_spec (hs c hc)).1, (mathSafe_spec (hs c hc)).2.1⟩)
  have hpPct : ∀ c ∈ trimL p, c ≠ '%' := all_mem_trimL (fun c hc =>
    (mathSafe_spec (hp c hc)).2.2.1)
  have hTPct : ∀ c ∈ jsTrim T, c ≠ '%' := all_mem_jsTrim (fun c hc =>
    (mathSafe_spec (hT c hc)).2.2.1)
  have hsPct : ∀ c ∈ trimR s, c ≠ '%' := all_mem_trimR (fun c hc =>
    (mathSafe_spec (hs c hc)).2.2.1)
  have htf : ThinkFree (p ++ ('$' :: '$' :: (T ++ '$' :: '$' :: s))) := by
    apply thinkFree_of_no_tag
    exact all_mem_append
      (fun c hc => ⟨(mathSafe_spec (hp c hc)).2.2.2.1, (mathSafe_spec (hp c hc)).2.2.2.2⟩)
      (all_mem_cons (by decide) (all_mem_cons (by decide) (all_mem_append
        (fun c hc => ⟨(mathSafe_spec (hT c hc)).2.2.2.1, (mathSafe_spec (hT c hc)).2.2.2.2⟩)
        (all_mem_cons (by decide) (all_mem_cons (by decide)
          (fun c hc => ⟨(mathSafe_spec (hs c hc)).2.2.2.1,
            (mathSafe_spec (hs c hc)).2.2.2.2⟩))))))
  have hstrip : stripThink (p ++ ('$' :: '$' :: (T ++ '$' :: '$' :: s)))
      = trimL p ++ ('$' :: '$' :: (T ++ '$' :: '$' :: trimR s)) := by
    rw [stripThink_free htf]
    have hassoc : p ++ ('$' :: '$' :: (T ++ '$' :: '$' :: s))
        = p ++ ((['$', '$'] ++ T) ++ ['$', '$']) ++ s := by simp
    have hh : ∀ c ∈ ((['$', '$'] ++ T) ++ ['$', '$'] : List Char).head?, jsWs c = false := by
      intro c hc
      rw [List.head?_append_of_ne_nil (['$', '$'] ++ T) (by simp)] at hc
      rw [List.head?_append_of_ne_nil ['$', '$'] (by simp)] at hc
      simp at hc
      rw [← hc]
      decide
    have hl : ∀ c ∈ ((['$', '$'] ++ T) ++ ['$', '$'] : List Char).getLast?,
        jsWs c = false := by
      intro c hc
      rw [List.getLast?_append_of_ne_nil (['$', '$'] ++ T) (by simp)] at hc
      simp at hc
      rw [← hc]
      decide
    rw [hassoc, jsTrim_append_mid (by simp) hh hl p s]
    simp
  have hin : maskDisp ('$' :: '$' :: (T ++ '$' :: '$' :: trimR s)) 0
      = (phD 0 ++ trimR s, [jsTrim T]) := by
    rw [maskDisp_match 0 (by simp) (matchDisp_DD_at hTne hTD),
      maskDisp_id 1 (matchDisp_none_suffix hsD)]
  have hmask : maskDisp (trimL p ++ ('$' :: '$' :: (T ++ '$' :: '$' :: trimR s))) 0
      = (trimL p ++ (phD 0 ++ trimR s), [jsTrim T]) := by
    rw [maskDisp_append 0 (matchDisp_none_across hpD), hin]
  have hmaski : maskInl (trimL p ++ (phD 0 ++ trimR s)) 0
      = (trimL p ++ (phD 0 ++ trimR s), []) := by
    apply maskInl_id 0
    apply matchInl_none_suffix
    exact all_mem_append hpD (all_mem_append (by decide) hsD)
  have hrest : restoreDisp [jsTrim T] (trimL p ++ (phD 0 ++ trimR s))
      = trimL p ++ ('$' :: '$' :: (jsTrim T ++ '$' :: '$' :: trimR s)) := by
    rw [restoreDisp_append (tryTokD_none_across hpPct),
      restoreDisp_matchTok (by simp [phD]) (tryTokD_phD0 (trimR s)),
      lookupTex_single, restoreDisp_id (tryTokD_none_all hsPct)]
    simp [show "$$".data = ['$', '$'] from rfl]
  have hresti : restoreInl ([] : List (List Char))
      (trimL p ++ ('$' :: '$' :: (jsTrim T ++ '$' :: '$' :: trimR s)))
      = trimL p ++ ('$' :: '$' :: (jsTrim T ++ '$' :: '$' :: trimR s)) := by
    apply restoreInl_id
    apply tryTokI_none_all
    exact all_mem_append hpPct (all_mem_cons (by decide) (all_mem_cons (by decide)
      (all_mem_append hTPct (all_mem_cons (by decide) (all_mem_cons (by decide) hsPct)))))
  rw [formatMessage_id_eq, hstrip]
  simp only [hmask]
  simp only [hmaski]
  rw [hrest, hresti]

/-- Full pipeline on a bracket-style display span: the output is normalized
to double-dollar delimiters. -/
theorem formatMessage_Brk {p T s : List Char}
    (hp : ∀ c ∈ p, mathSafe c = true) (hT : ∀ c ∈ T, mathSafe c = true)
    (hs : ∀ c ∈ s, mathSafe c = true) (hTne : T ≠ []) :
    formatMessage idCollabs (p ++ ('\\' :: '[' :: (T ++ '\\' :: ']' :: s)))
      = trimL p ++ ('$' :: '$' :: (jsTrim T ++ '$' :: '$' :: trimR s)) := by
  have hpD : ∀ c ∈ trimL p, c ≠ '$' ∧ c ≠ '\\' := all_mem_trimL (fun c hc =>
    ⟨(mathSafe_spec (hp c hc)).1, (mathSafe_spec (hp c hc)).2.1⟩)
  have hTB : ∀ c ∈ T, c ≠ '\\' := fun c hc => (mathSafe_spec (hT c hc)).2.1
  have hsD : ∀ c ∈ trimR s, c ≠ '$' ∧ c ≠ '\\' := all_mem_trimR (fun c hc =>
    ⟨(mathSafe_spec (hs c hc)).1, (mathSafe_spec (hs c hc)).2.1⟩)
  have hpPct : ∀ c ∈ trimL p, c ≠ '%' := all_mem_trimL (fun c hc =>
    (mathSafe_spec (hp c hc)).2.2.1)
  have hTPct : ∀ c ∈ jsTrim T, c ≠ '%' := all_mem_jsTrim (fun c hc =>
    (mathSafe_spec (hT c hc)).2.2.1)
  have hsPct : ∀ c ∈ trimR s, c ≠ '%' := all_mem_trimR (fun c hc =>
    (mathSafe_spec (hs c hc)).2.2.1)
  have htf : ThinkFree (p ++ ('\\' :: '[' :: (T ++ '\\' :: ']' :: s))) := by
    apply thinkFree_of_no_tag
    exact all_mem_append
      (fun c hc => ⟨(mathSafe_spec (hp c hc)).2.2.2.1, (mathSafe_spec (hp c hc)).2.2.2.2⟩)
      (all_mem_cons (by decide) (all_mem_cons (by decide) (all_mem_append
        (fun c hc => ⟨(mathSafe_spec (hT c hc)).2.2.2.1, (mathSafe_spec (hT c hc)).2.2.2.2⟩)
        (all_mem_cons (by decide) (all_mem_cons (by decide)
          (fun c hc => ⟨(mathSafe_spec (hs c hc)).2.2.2.1,
            (mathSafe_spec (hs c hc)).2.2.2.2⟩))))))
  have hstrip : stripThink (p ++ ('\\' :: '[' :: (T ++ '\\' :: ']' :: s)))
      = trimL p ++ ('\\' :: '[' :: (T ++ '\\' :: ']' :: trimR s)) := by
    rw [stripThink_free htf]
    have hassoc : p ++ ('\\' :: '[' :: (T ++ '\\' :: ']' :: s))
        = p ++ ((['\\', '['] ++ T) ++ ['\\', ']']) ++ s := by simp
    have hh : ∀ c ∈ ((['\\', '['] ++ T) ++ ['\\', ']'] : List Char).head?,
        jsWs c = false := by
      intro c hc
      rw [List.head?_append_of_ne_nil (['\\', '['] ++ T) (by simp)] at hc
      rw [List.head?_append_of_ne_nil ['\\', '['] (by simp)] at hc
      simp at hc
      rw [← hc]
      decide
    have hl : ∀ c ∈ ((['\\', '['] ++ T) ++ ['\\', ']'] : List Char).getLast?,
        jsWs c = false := by
      intro c hc
      rw [List.getLast?_append_of_ne_nil (['\\', '['] ++ T) (by simp)] at hc
      simp at hc
      rw [← hc]
      decide
    rw [hassoc, jsTrim_append_mid (by simp) hh hl p s]
    simp
  have hin : maskDisp ('\\' :: '[' :: (T ++ '\\' :: ']' :: trimR s)) 0
      = (phD 0 ++ trimR s, [jsTrim T]) := by
    rw [maskDisp_match 0 (by simp) (matchDisp_Brk_at hTne hTB),
      maskDisp_id 1 (matchDisp_none_suffix hsD)]
  have hmask : maskDisp (trimL p ++ ('\\' :: '[' :: (T ++ '\\' :: ']' :: trimR s))) 0
      = (trimL p ++ (phD 0 ++ trimR s), [jsTrim T]) := by
    rw [maskDisp_append 0 (matchDisp_none_across hpD), hin]
  have hmaski : maskInl (trimL p ++ (phD 0 ++ trimR s)) 0
      = (trimL p ++ (phD 0 ++ trimR s), []) := by
    apply maskInl_id 0
    apply matchInl_none_suffix
    exact all_mem_append hpD (all_mem_append (by decide) hsD)
  have hrest : restoreDisp [jsTrim T] (trimL p ++ (phD 0 ++ trimR s))
      = trimL p ++ ('$' :: '$' :: (jsTrim T ++ '$' :: '$' :: trimR s)) := by
    rw [restoreDisp_append (tryTokD_none_across hpPct),
      restoreDisp_matchTok (by simp [phD]) (tryTokD_phD0 (trimR s)),
      lookupTex_single, restoreDisp_id (tryTokD_none_all hsPct)]
    simp [show "$$".data = ['$', '$'] from rfl]
  have hresti : restoreInl ([] : List (List Char))
      (trimL p ++ ('$' :: '$' :: (jsTrim T ++ '$' :: '$' :: trimR s)))
      = trimL p ++ ('$' :: '$' :: (jsTrim T ++ '$' :: '$' :: trimR s)) := by
    apply restoreInl_id
    apply tryTokI_none_all
    exact all_mem_append hpPct (all_mem_cons (by decide) (all_mem_cons (by decide)
      (all_mem_append hTPct (all_mem_cons (by decide) (all_mem_cons (by decide) hsPct)))))
  rw [formatMessage_id_eq, hstrip]
  simp only [hmask]
  simp only [hmaski]
  rw [hrest, hresti]

/-- Full pipeline on a single-dollar inline span: masked by the inline pass,
restored wrapped in backslash-paren delimiters. -/
theorem formatMessage_SD {p T s : List Char}
    (hp : ∀ c ∈ p, mathSafe c = true) (hT : ∀ c ∈ T, mathSafe c = true)
    (hs : ∀ c ∈ s, mathSafe c = true) (hTne : T ≠ []) (hTn : '\n' ∉ T) :
    formatMessage idCollabs (p ++ ('$' :: (T ++ '$' :: s)))
      = trimL p ++ ('\\' :: '(' :: (jsTrim T ++ '\\' :: ')' :: trimR s)) := by
  have hpD : ∀ c ∈ trimL p, c ≠ '$' ∧ c ≠ '\\' := all_mem_trimL (fun c hc =>
    ⟨(mathSafe_spec (hp c hc)).1, (mathSafe_spec (hp c hc)).2.1⟩)
  have hTD : ∀ c ∈ T, c ≠ '$' := fun c hc => (mathSafe_spec (hT c hc)).1
  have hTD2 : ∀ c ∈ T, c ≠ '$' ∧ c ≠ '\\' := fun c hc =>
    ⟨(mathSafe_spec (hT c hc)).1, (mathSafe_spec (hT c hc)).2.1⟩
  have hsD : ∀ c ∈ trimR s, c ≠ '$' ∧ c ≠ '\\' := all_mem_trimR (fun c hc =>
    ⟨(mathSafe_spec (hs c hc)).1, (mathSafe_spec (hs c hc)).2.1⟩)
  have hpPct : ∀ c ∈ trimL p, c ≠ '%' := all_mem_trimL (fun c hc =>
    (mathSafe_spec (hp c hc)).2.2.1)
  have hTPct : ∀ c ∈ jsTrim T, c ≠ '%' := all_mem_jsTrim (fun c hc =>
    (mathSafe_spec (hT c hc)).2.2.1)
  have hsPct : ∀ c ∈ trimR s, c ≠ '%' := all_mem_trimR (fun c hc =>
    (mathSafe_spec (hs c hc)).2.2.1)
  have htf : ThinkFree (p ++ ('$' :: (T ++ '$' :: s))) := by
    apply thinkFree_of_no_tag
    exact all_mem_append
      (fun c hc => ⟨(mathSafe_spec (hp c hc)).2.2.2.1, (mathSafe_spec (hp c hc)).2.2.2.2⟩)
      (all_mem_cons (by decide) (all_mem_append
        (fun c hc => ⟨(mathSafe_spec (hT c hc)).2.2.2.1, (mathSafe_spec (hT c hc)).2.2.2.2⟩)
        (all_mem_cons (by decide)
          (fun c hc => ⟨(mathSafe_spec (hs c hc)).2.2.2.1,
            (mathSafe_spec (hs c hc)).2.2.2.2⟩))))
  have hstrip : stripThink (p ++ ('$' :: (T ++ '$' :: s)))
      = trimL p ++ ('$' :: (T ++ '$' :: trimR s)) := by
    rw [stripThink_free htf]
    have hassoc : p ++ ('$' :: (T ++ '$' :: s))
        = p ++ ((['$'] ++ T) ++ ['$']) ++ s := by simp
    have hh : ∀ c ∈ ((['$'] ++ T) ++ ['$'] : List Char).head?, jsWs c = false := by
      intro c hc
      rw [List.head?_append_of_ne_nil (['$'] ++ T) (by simp)] at hc
      rw [List.head?_append_of_ne_nil ['$'] (by simp)] at hc
      simp at hc
      rw [← hc]
      decide
    have hl : ∀ c ∈ ((['$'] ++ T) ++ ['$'] : List Char).getLast?, jsWs c = false := by
      intro c hc
      rw [List.getLast?_append_of_ne_nil (['$'] ++ T) (by simp)] at hc
      simp at hc
      rw [← hc]
      decide
    rw [hassoc, jsTrim_append_mid (by simp) hh hl p s]
    simp
  have hmaskD : maskDisp (trimL p ++ ('$' :: (T ++ '$' :: trimR s))) 0
      = (trimL p ++ ('$' :: (T ++ '$' :: trimR s)), []) :=
    maskDisp_id 0 (matchDisp_none_sd hpD hTD2 hsD hTne)
  have hin : maskInl ('$' :: (T ++ '$' :: trimR s)) 0
      = (phI 0 ++ trimR s, [jsTrim T]) := by
    rw [maskInl_match 0 (by simp) (matchInl_SD_at hTne hTD hTn),
      maskInl_id 1 (matchInl_none_suffix hsD)]
  have hmaskI : maskInl (trimL p ++ ('$' :: (T ++ '$' :: trimR s))) 0
      = (trimL p ++ (phI 0 ++ trimR s), [jsTrim T]) := by
    rw [maskInl_append 0 (matchInl_none_across hpD), hin]
  have hrestD : restoreDisp ([] : List (List Char)) (trimL p ++ (phI 0 ++ trimR s))
      = trimL p ++ (phI 0 ++ trimR s) := by
    apply restoreDisp_id
    intro r hr hne
    rcases suffix_append_cases hr with hr | ⟨x, hx, hxne, hre⟩
    · rcases suffix_append_cases hr with hr | ⟨x, hx, hxne, hre⟩
      · exact tryTokD_none_all hsPct r hr hne
      · rw [hre]
        exact tryTokD_none_phI0_suffix hx hsPct
    · rcases x with _ | ⟨c, t⟩
      · exact absurd rfl hxne
      · rw [hre, List.cons_append]
        exact tryTokD_none_head (hpPct c (hx.subset (by simp)))
  have hrestI : restoreInl [jsTrim T] (trimL p ++ (phI 0 ++ trimR s))
      = trimL p ++ ('\\' :: '(' :: (jsTrim T ++ '\\' :: ')' :: trimR s)) := by
    rw [restoreInl_append (tryTokI_none_across hpPct),
      restoreInl_matchTok (by simp [phI]) (tryTokI_phI0 (trimR s)),
      lookupTex_single, restoreInl_id (tryTokI_none_all hsPct)]
    simp [show "\\(".data = ['\\', '('] from rfl, show "\\)".data = ['\\', ')'] from rfl]
  rw [formatMessage_id_eq, hstrip]
  simp only [hmaskD]
  simp only [hmaskI]
  rw [hrestD, hrestI]

/-- Full pipeline on a backslash-paren inline span: restored in the same
backslash-paren convention. -/
theorem formatMessage_Paren {p T s : List Char}
    (hp : ∀ c ∈ p, mathSafe c = true) (hT : ∀ c ∈ T, mathSafe c = true)
    (hs : ∀ c ∈ s, mathSafe c = true) (hTne : T ≠ []) :
    formatMessage idCollabs (p ++ ('\\' :: '(' :: (T ++ '\\' :: ')' :: s)))
      = trimL p ++ ('\\' :: '(' :: (jsTrim T ++ '\\' :: ')' :: trimR s)) := by
  have hpD : ∀ c ∈ trimL p, c ≠ '$' ∧ c ≠ '\\' := all_mem_trimL (fun c hc =>
    ⟨(mathSafe_spec (hp c hc)).1, (mathSafe_spec (hp c hc)).2.1⟩)
  have hTB : ∀ c ∈ T, c ≠ '\\' := fun c hc => (mathSafe_spec (hT c hc)).2.1
  have hTD2 : ∀ c ∈ T, c ≠ '$' ∧ c ≠ '\\' := fun c hc =>
    ⟨(mathSafe_spec (hT c hc)).1, (mathSafe_spec (hT c hc)).2.1⟩
  have hsD : ∀ c ∈ trimR s, c ≠ '$' ∧ c ≠ '\\' := all_mem_trimR (fun c hc =>
    ⟨(mathSafe_spec (hs c hc)).1, (mathSafe_spec (hs c hc)).2.1⟩)
  have hpPct : ∀ c ∈ trimL p, c ≠ '%' := all_mem_trimL (fun c hc =>
    (mathSafe_spec (hp c hc)).2.2.1)
  have hTPct : ∀ c ∈ jsTrim T, c ≠ '%' := all_mem_jsTrim (fun c hc =>
    (mathSafe_spec (hT c hc)).2.2.1)
  have hsPct : ∀ c ∈ trimR s, c ≠ '%' := all_mem_trimR (fun c hc =>
    (mathSafe_spec (hs c hc)).2.2.1)
  have htf : ThinkFree (p ++ ('\\' :: '(' :: (T ++ '\\' :: ')' :: s))) := by
    apply thinkFree_of_no_tag
    exact all_mem_append
      (fun c hc => ⟨(mathSafe_spec (hp c hc)).2.2.2.1, (mathSafe_spec (hp c hc)).2.2.2.2⟩)
      (all_mem_cons (by decide) (all_mem_cons (by decide) (all_mem_append
        (fun c hc => ⟨(mathSafe_spec (hT c hc)).2.2.2.1, (mathSafe_spec (hT c hc)).2.2.2.2⟩)
        (all_mem_cons (by decide) (all_mem_cons (by decide)
          (fun c hc => ⟨(mathSafe_spec (hs c hc)).2.2.2.1,
            (mathSafe_spec (hs c hc)).2.2.2.2⟩))))))
  have hstrip : stripThink (p ++ ('\\' :: '(' :: (T ++ '\\' :: ')' :: s)))
      = trimL p ++ ('\\' :: '(' :: (T ++ '\\' :: ')' :: trimR s)) := by
    rw [stripThink_free htf]
    have hassoc : p ++ ('\\' :: '(' :: (T ++ '\\' :: ')' :: s))
        = p ++ ((['\\', '('] ++ T) ++ ['\\', ')']) ++ s := by simp
    have hh : ∀ c ∈ ((['\\', '('] ++ T) ++ ['\\', ')'] : List Char).head?,
        jsWs c = false := by
      intro c hc
      rw [List.head?_append_of_ne_nil (['\\', '('] ++ T) (by simp)] at hc
      rw [List.head?_append_of_ne_nil ['\\', '('] (by simp)] at hc
      simp at hc
      rw [← hc]
      decide
    have hl : ∀ c ∈ ((['\\', '('] ++ T) ++ ['\\', ')'] : List Char).getLast?,
        jsWs c = false := by
      intro c hc
      rw [List.getLast?_append_of_ne_nil (['\\', '('] ++ T) (by simp)] at hc
      simp at hc
      rw [← hc]
      decide
    rw [hassoc, jsTrim_append_mid (by simp) hh hl p s]
    simp
  have hmaskD : maskDisp (trimL p ++ ('\\' :: '(' :: (T ++ '\\' :: ')' :: trimR s))) 0
      = (trimL p ++ ('\\' :: '(' :: (T ++ '\\' :: ')' :: trimR s)), []) :=
    maskDisp_id 0 (matchDisp_none_paren hpD hTD2 hsD)
  have hin : maskInl ('\\' :: '(' :: (T ++ '\\' :: ')' :: trimR s)) 0
      = (phI 0 ++ trimR s, [jsTrim T]) := by
    rw [maskInl_match 0 (by simp) (matchInl_Paren_at hTne hTB),
      maskInl_id 1 (matchInl_none_suffix hsD)]
  have hmaskI : maskInl (trimL p ++ ('\\' :: '(' :: (T ++ '\\' :: ')' :: trimR s))) 0
      = (trimL p ++ (phI 0 ++ trimR s), [jsTrim T]) := by
    rw [maskInl_append 0 (matchInl_none_across hpD), hin]
  have hrestD : restoreDisp ([] : List (List Char)) (trimL p ++ (phI 0 ++ trimR s))
      = trimL p ++ (phI 0 ++ trimR s) := by
    apply restoreDisp_id
    intro r hr hne
    rcases suffix_append_cases hr with hr | ⟨x, hx, hxne, hre⟩
    · rcases suffix_append_cases hr with hr | ⟨x, hx, hxne, hre⟩
      · exact tryTokD_none_all hsPct r hr hne
      · rw [hre]
        exact tryTokD_none_phI0_suffix hx hsPct
    · rcases x with _ | ⟨c, t⟩
      · exact absurd rfl hxne
      · rw [hre, List.cons_append]
        exact tryTokD_none_head (hpPct c (hx.subset (by simp)))
  have hrestI : restoreInl [jsTrim T] (trimL p ++ (phI 0 ++ trimR s))
      = trimL p ++ ('\\' :: '(' :: (jsTrim T ++ '\\' :: ')' :: trimR s)) := by
    rw [restoreInl_append (tryTokI_none_across hpPct),
      restoreInl_matchTok (by simp [phI]) (tryTokI_phI0 (trimR s)),
      lookupTex_single, restoreInl_id (tryTokI_none_all hsPct)]
    simp [show "\\(".data = ['\\', '('] from rfl, show "\\)".data = ['\\', ')'] from rfl]
  rw [formatMessage_id_eq, hstrip]
  simp only [hmaskD]
  simp only [hmaskI]
  rw [hrestD, hrestI]

/-- Per-step facts about `streamStep`: which fields change and how the trace
grows. -/
theorem streamStep_pushes (C : Collabs) (st : ChatState) (v : Viewport)
    (acc2 : List Char) (first : Bool) :
    turnPushes (streamStep C st v acc2 first).trace = turnPushes st.trace := by
  rcases first with _ | _ <;>
    rcases hl : st.loadingShown with _ | _ <;>
    rcases hb : st.aiBubble with _ | b <;>
    rcases hs : isAtBottom v with _ | _ <;>
      simp [streamStep, addMessage, hl, hb, hs, turnPushes_append, turnPushes]

theorem streamStep_choices (C : Collabs) (st : ChatState) (v : Viewport)
    (acc2 : List Char) (first : Bool) :
    scrollChoices (streamStep C st v acc2 first).trace =
      scrollChoices st.trace ++ [if first then true else isAtBottom v] := by
  rcases first with _ | _ <;>
    rcases hl : st.loadingShown with _ | _ <;>
    rcases hb : st.aiBubble with _ | b <;>
    rcases hs : isAtBottom v with _ | _ <;>
      simp [streamStep, addMessage, hl, hb, hs, scrollChoices_append, scrollChoices]

theorem streamStep_stable (C : Collabs) (st : ChatState) (v : Viewport)
    (acc2 : List Char) (first : Bool) :
    (streamStep C st v acc2 first).history = st.history ∧
    (streamStep C st v acc2 first).userBubbles = st.userBubbles ∧
    (streamStep C st v acc2 first).systemBubbles = st.systemBubbles := by
  rcases first with _ | _ <;>
    rcases hl : st.loadingShown with _ | _ <;>
    rcases hb : st.aiBubble with _ | b <;>
    rcases hs : isAtBottom v with _ | _ <;>
      simp [streamStep, addMessage, hl, hb, hs]

theorem streamStep_bubble (C : Collabs) (st : ChatState) (v : Viewport)
    (acc2 : List Char) (first : Bool) :
    (streamStep C st v acc2 first).aiBubble =
      (if first then some (formatMessage C acc2)
       else match st.aiBubble with
            | some _ => some (formatMessage C acc2)
            | none => none) := by
  rcases first with _ | _ <;>
    rcases hl : st.loadingShown with _ | _ <;>
    rcases hb : st.aiBubble with _ | b <;>
    rcases hs : isAtBottom v with _ | _ <;>
      simp [streamStep, addMessage, hl, hb, hs]

theorem streamStep_loading (C : Collabs) (st : ChatState) (v : Viewport)
    (acc2 : List Char) (first : Bool) :
    (streamStep C st v acc2 first).loadingShown =
      (if first then false else st.loadingShown) := by
  rcases first with _ | _ <;>
    rcases hl : st.loadingShown with _ | _ <;>
    rcases hb : st.aiBubble with _ | b <;>
    rcases hs : isAtBottom v with _ | _ <;>
      simp [streamStep, addMessage, hl, hb, hs]

theorem streamStep_trace_mono (C : Collabs) (st : ChatState) (v : Viewport)
    (acc2 : List Char) (first : Bool) :
    ∃ seg, (streamStep C st v acc2 first).trace = st.trace ++ seg := by
  rcases first with _ | _ <;>
    rcases hl : st.loadingShown with _ | _ <;>
    rcases hb : st.aiBubble with _ | b <;>
    rcases hs : isAtBottom v with _ | _ <;>
      exact ⟨_, by simp [streamStep, addMessage, hl, hb, hs, List.append_assoc]; rfl⟩

/-- The accumulation registers of the read loop concatenate the chunks in
order. -/
theorem runStream_accum (C : Collabs) : ∀ (chunks : List (Viewport × List Char))
    (st : ChatState) (acc raw : List Char) (first : Bool),
    (runStream C chunks st acc raw first).acc = acc ++ joinChunks chunks ∧
    (runStream C chunks st acc raw first).raw = raw ++ joinChunks chunks := by
  intro chunks
  induction chunks with
  | nil => intro st acc raw first; simp [runStream, joinChunks]
  | cons q rest ih =>
    intro st acc raw first
    obtain ⟨v, chunk⟩ := q
    rw [runStream]
    obtain ⟨ih1, ih2⟩ := ih (streamStep C st v (acc ++ chunk) first)
      (acc ++ chunk) (raw ++ chunk) false
    constructor
    · rw [ih1]; simp [joinChunks]
    · rw [ih2]; simp [joinChunks]

/-- The read loop never pushes transcript turns. -/
theorem runStream_pushes (C : Collabs) : ∀ (chunks : List (Viewport × List Char))
    (st : ChatState) (acc raw : List Char) (first : Bool),
    turnPushes (runStream C chunks st acc raw first).st.trace = turnPushes st.trace := by
  intro chunks
  induction chunks with
  | nil => intro st acc raw first; rfl
  | cons q rest ih =>
    intro st acc raw first
    obtain ⟨v, chunk⟩ := q
    rw [runStream, ih, streamStep_pushes]

/-- The scroll decisions of the read loop: `true` forced while `first` holds,
the captured viewport decision afterwards. -/
theorem runStream_choices (C : Collabs) : ∀ (chunks : List (Viewport × List Char))
    (st : ChatState) (acc raw : List Char),
    scrollChoices (runStream C chunks st acc raw false).st.trace =
      scrollChoices st.trace ++ chunks.map (fun q => isAtBottom q.1) := by
  intro chunks
  induction chunks with
  | nil => intro st acc raw; simp [runStream]
  | cons q rest ih =>
    intro st acc raw
    obtain ⟨v, chunk⟩ := q
    rw [runStream, ih, streamStep_choices]
    simp

/-- The read loop leaves transcript, user bubbles and system bubbles
untouched. -/
theorem runStream_stable (C : Collabs) : ∀ (chunks : List (Viewport × List Char))
    (st : ChatState) (acc raw : List Char) (first : Bool),
    (runStream C chunks st acc raw first).st.history = st.history ∧
    (runStream C chunks st acc raw first).st.userBubbles = st.userBubbles ∧
    (runStream C chunks st acc raw first).st.systemBubbles = st.systemBubbles := by
  intro chunks
  induction chunks with
  | nil => intro st acc raw first; exact ⟨rfl, rfl, rfl⟩
  | cons q rest ih =>
    intro st acc raw first
    obtain ⟨v, chunk⟩ := q
    rw [runStream]
    obtain ⟨ih1, ih2, ih3⟩ := ih (streamStep C st v (acc ++ chunk) first)
      (acc ++ chunk) (raw ++ chunk) false
    obtain ⟨s1, s2, s3⟩ := streamStep_stable C st v (acc ++ chunk) first
    exact ⟨ih1.trans s1, ih2.trans s2, ih3.trans s3⟩

/-- The trace only grows along the read loop. -/
theorem runStream_trace_mono (C : Collabs) : ∀ (chunks : List (Viewport × List Char))
    (st : ChatState) (acc raw : List Char) (first : Bool),
    ∃ ex, (runStream C chunks st acc raw first).st.trace = st.trace ++ ex := by
  intro chunks
  induction chunks with
  | nil => intro st acc raw first; exact ⟨[], by simp [runStream]⟩
  | cons q rest ih =>
    intro st acc raw first
    obtain ⟨v, chunk⟩ := q
    rw [runStream]
    obtain ⟨ex, hex⟩ := ih (streamStep C st v (acc ++ chunk) first)
      (acc ++ chunk) (raw ++ chunk) false
    obtain ⟨seg, hseg⟩ := streamStep_trace_mono C st v (acc ++ chunk) first
    exact ⟨seg ++ ex, by rw [hex, hseg, List.append_assoc]⟩

/-- The bubble after the loop, when the loop starts in non-first mode with a
live bubble: the formatted full accumulation (or untouched when no chunk
arrives). -/
theorem runStream_bubble_some (C : Collabs) : ∀ (chunks : List (Viewport × List Char))
    (st : ChatState) (acc raw : List Char) (b : List Char),
    st.aiBubble = some b → chunks ≠ [] →
    (runStream C chunks st acc raw false).st.aiBubble =
      some (formatMessage C (acc ++ joinChunks chunks)) := by
  intro chunks
  induction chunks with
  | nil => intro st acc raw b _ hne; exact absurd rfl hne
  | cons q rest ih =>
    intro st acc raw b hb _
    obtain ⟨v, chunk⟩ := q
    rw [runStream]
    have hstep : (streamStep C st v (acc ++ chunk) false).aiBubble
        = some (formatMessage C (acc ++ chunk)) := by
      rw [streamStep_bubble, hb]
      simp
    rcases rest with _ | ⟨q', rest'⟩
    · simpa [runStream, joinChunks] using hstep
    · have := ih (streamStep C st v (acc ++ chunk) false) (acc ++ chunk)
        (raw ++ chunk) (formatMessage C (acc ++ chunk)) hstep (by simp)
      rw [this]
      simp [joinChunks]

/-- The bubble after the loop, starting in first mode with at least one
chunk: created on the first chunk and re-rendered to the formatted full
accumulation. -/
theorem runStream_bubble_first (C : Collabs) (v : Viewport) (chunk : List Char)
    (rest : List (Viewport × List Char)) (st : ChatState) (acc raw : List Char) :
    (runStream C ((v, chunk) :: rest) st acc raw true).st.aiBubble =
      some (formatMessage C (acc ++ joinChunks ((v, chunk) :: rest))) := by
  rw [runStream]
  have hstep : (streamStep C st v (acc ++ chunk) true).aiBubble
      = some (formatMessage C (acc ++ chunk)) := by
    rw [streamStep_bubble]
    simp
  rcases rest with _ | ⟨q', rest'⟩
  · simpa [runStream, joinChunks] using hstep
  · have := runStream_bubble_some C (q' :: rest')
      (streamStep C st v (acc ++ chunk) true) (acc ++ chunk) (raw ++ chunk)
      (formatMessage C (acc ++ chunk)) hstep (by simp)
    rw [this]
    simp [joinChunks]

/-- The loading indicator after the loop: removed by the first chunk,
untouched when no chunk arrives. -/
theorem runStream_loading_first (C : Collabs) : ∀ (chunks : List (Viewport × List Char))
    (st : ChatState) (acc raw : List Char),
    chunks ≠ [] → (runStream C chunks st acc raw true).st.loadingShown = false := by
  intro chunks
  rcases chunks with _ | ⟨⟨v, chunk⟩, rest⟩
  · intro st acc raw h; exact absurd rfl h
  · intro st acc raw _
    rw [runStream]
    have hload : (streamStep C st v (acc ++ chunk) true).loadingShown = false := by
      rw [streamStep_loading]; rfl
    have hmono : ∀ (cs : List (Viewport × List Char)) (s : ChatState) (a r : List Char),
        (runStream C cs s a r false).st.loadingShown = s.loadingShown := by
      intro cs
      induction cs with
      | nil => intro s a r; rfl
      | cons q' rest' ih =>
        intro s a r
        obtain ⟨v', c'⟩ := q'
        rw [runStream, ih, streamStep_loading]
        rfl
    rw [hmono, hload]

/-- The state right after the pre-stream actions of `sendMessage`
(lines 193–243): user bubble and transcript turn added, history saved,
loading indicator shown, view scrolled, request dispatched. -/
def preState (st0 : ChatState) (text : List Char) : ChatState :=
  { st0 with
    history := st0.history ++ [Turn.mk "user".data text],
    userBubbles := st0.userBubbles ++ [text],
    loadingShown := true,
    trace := st0.trace ++ [Act.addUserBubble text, Act.scrollBottom,
      Act.pushTurn (Turn.mk "user".data text), Act.saveHistory, Act.showLoading,
      Act.scrollBottom, Act.dispatchRequest] }

/-- Finalisation after a clean stream end (lines 310–316): append the full
assistant turn and save. -/
def finalizeDone (r : LoopRes) : ChatState :=
  { r.st with
    history := r.st.history ++ [Turn.mk "assistant".data r.raw],
    trace := r.st.trace ++ [Act.pushTurn (Turn.mk "assistant".data r.raw),
      Act.saveHistory] }

theorem sendMessage_eq (C : Collabs) (st0 : ChatState) (input : List Char)
    (fetchOk : Bool) (chunks : List (Viewport × List Char)) (term : Terminal)
    (ht : jsTrim input ≠ []) :
    sendMessage C st0 input fetchOk chunks term =
      (if fetchOk = false then catchHandler C (preState st0 (jsTrim input))
       else
         let r := runStream C chunks
           { preState st0 (jsTrim input) with aiBubble := none } [] [] true
         match term with
         | Terminal.fail => catchHandler C r.st
         | Terminal.done => finalizeDone r) := by
  rw [sendMessage, if_neg ht]
  rcases fetchOk with _ | _ <;> rcases term with _ | _ <;>
    simp [preState, finalizeDone, addMessage, catchHandler, List.append_assoc]

/-- The catch handler removes the loading indicator, appends exactly one
system bubble, and touches neither transcript nor AI bubble. -/
theorem catchHandler_props (C : Collabs) (st : ChatState) :
    (catchHandler C st).history = st.history ∧
    (catchHandler C st).loadingShown = false ∧
    (catchHandler C st).aiBubble = st.aiBubble ∧
    (catchHandler C st).userBubbles = st.userBubbles ∧
    (catchHandler C st).systemBubbles
      = st.systemBubbles ++ [formatMessage C errorMessage] ∧
    turnPushes (catchHandler C st).trace = turnPushes st.trace ∧
    scrollChoices (catchHandler C st).trace = scrollChoices st.trace ∧
    ∃ seg, (catchHandler C st).trace = st.trace ++ seg := by
  rcases hl : st.loadingShown with _ | _ <;>
    refine ⟨by simp [catchHandler, addMessage, hl], by simp [catchHandler, addMessage, hl],
      by simp [catchHandler, addMessage, hl], by simp [catchHandler, addMessage, hl],
      by simp [catchHandler, addMessage, hl],
      by simp [catchHandler, addMessage, hl, turnPushes_append, turnPushes],
      by simp [catchHandler, addMessage, hl, scrollChoices_append, scrollChoices],
      ⟨_, by simp [catchHandler, addMessage, hl, List.append_assoc]; rfl⟩⟩

/-- Modelled from the spec: the auto-scroll decision sequence the
specification prescribes — `true` unconditionally for the first chunk of a
response, and `distanceFromBottom < 50` on the viewport captured at chunk
arrival (before the DOM mutation) for every later chunk. -/
def autoScrollSpec : List (Viewport × List Char) → List Bool
  | [] => []
  | _ :: rest => true :: rest.map (fun q => isAtBottom q.1)

theorem sendMessage_eq_httpfail (C : Collabs) (st0 : ChatState) (input : List Char)
    (chunks : List (Viewport × List Char)) (term : Terminal) (ht : jsTrim input ≠ []) :
    sendMessage C st0 input false chunks term
      = catchHandler C (preState st0 (jsTrim input)) := by
  rw [sendMessage_eq C st0 input false chunks term ht]
  rfl

theorem sendMessage_eq_fail (C : Collabs) (st0 : ChatState) (input : List Char)
    (chunks : List (Viewport × List Char)) (ht : jsTrim input ≠ []) :
    sendMessage C st0 input true chunks Terminal.fail
      = catchHandler C (runStream C chunks
          { preState st0 (jsTrim input) with aiBubble := none } [] [] true).st := by
  rw [sendMessage_eq C st0 input true chunks Terminal.fail ht]
  rfl

theorem sendMessage_eq_done (C : Collabs) (st0 : ChatState) (input : List Char)
    (chunks : List (Viewport × List Char)) (ht : jsTrim input ≠ []) :
    sendMessage C st0 input true chunks Terminal.done
      = finalizeDone (runStream C chunks
          { preState st0 (jsTrim input) with aiBubble := none } [] [] true) := by
  rw [sendMessage_eq C st0 input true chunks Terminal.done ht]
  rfl

theorem scrollChoices_pre (st0 : ChatState) (text : List Char) :
    scrollChoices (preState st0 text).trace = scrollChoices st0.trace := by
  simp [preState, scrollChoices_append, scrollChoices]

theorem turnPushes_pre (st0 : ChatState) (text : List Char) :
    turnPushes (preState st0 text).trace
      = turnPushes st0.trace ++ [Turn.mk "user".data text] := by
  simp [preState, turnPushes_append, turnPushes]

theorem runStream_choices_first (C : Collabs) (chunks : List (Viewport × List Char))
    (st : ChatState) (acc raw : List Char) :
    scrollChoices (runStream C chunks st acc raw true).st.trace =
      scrollChoices st.trace ++ autoScrollSpec chunks := by
  rcases chunks with _ | ⟨⟨v, chunk⟩, rest⟩
  · simp [runStream, autoScrollSpec]
  · rw [runStream, runStream_choices, streamStep_choices]
    simp [autoScrollSpec]

theorem runStream_bubble_ne (C : Collabs) (chunks : List (Viewport × List Char))
    (st : ChatState) (acc raw : List Char) (hne : chunks ≠ []) :
    (runStream C chunks st acc raw true).st.aiBubble =
      some (formatMessage C (acc ++ joinChunks chunks)) := by
  rcases chunks with _ | ⟨⟨v, chunk⟩, rest⟩
  · exact absurd rfl hne
  · exact runStream_bubble_first C v chunk rest st acc raw

theorem runStream_raw (C : Collabs) (chunks : List (Viewport × List Char))
    (st : ChatState) :
    (runStream C chunks st [] [] true).raw = joinChunks chunks := by
  have := (runStream_accum C chunks st [] [] true).2
  simpa using this

/-- C5: the auto-scroll decision recorded for every chunk after the first is
`isAtBottom` of the viewport captured when that chunk arrived (before the
DOM mutation of the iteration), and the decision for the first chunk of a
response is `true` unconditionally. -/
theorem autoscroll_decisions (C : Collabs) (st0 : ChatState) (input : List Char)
    (chunks : List (Viewport × List Char)) (term : Terminal)
    (ht : jsTrim input ≠ []) (h0 : st0.trace = []) :
    scrollChoices (sendMessage C st0 input true chunks term).trace
      = autoScrollSpec chunks := by
  have hpre : scrollChoices ({ preState st0 (jsTrim input) with
      aiBubble := none } : ChatState).trace = [] := by
    have h1 := scrollChoices_pre st0 (jsTrim input)
    rw [h0] at h1
    simpa [scrollChoices] using h1
  have hrun : scrollChoices (runStream C chunks
      { preState st0 (jsTrim input) with aiBubble := none } [] [] true).st.trace
      = autoScrollSpec chunks := by
    rw [runStream_choices_first, hpre]
    rfl
  rcases term with _ | _
  · rw [sendMessage_eq_done C st0 input chunks ht, finalizeDone]
    simp only [scrollChoices_append]
    rw [hrun]
    simp [scrollChoices]
  · rw [sendMessage_eq_fail C st0 input chunks ht]
    rw [(catchHandler_props C _).2.2.2.2.2.2.1, hrun]

/-- C6: the user turn is pushed before the request is dispatched; an
assistant turn is pushed only when the stream completes cleanly, exactly
once, with the full accumulated raw text, at the very end of the turn. -/
theorem transcript_ordering (C : Collabs) (st0 : ChatState) (input : List Char)
    (fetchOk : Bool) (chunks : List (Viewport × List Char)) (term : Terminal)
    (ht : jsTrim input ≠ []) :
    (∃ pre post, (sendMessage C st0 input fetchOk chunks term).trace
        = pre ++ Act.dispatchRequest :: post
        ∧ Act.pushTurn (Turn.mk "user".data (jsTrim input)) ∈ pre) ∧
    turnPushes (sendMessage C st0 input fetchOk chunks term).trace
        = turnPushes st0.trace ++ Turn.mk "user".data (jsTrim input) ::
          (if fetchOk = true ∧ term = Terminal.done
           then [Turn.mk "assistant".data (joinChunks chunks)] else []) ∧
    (fetchOk = true → term = Terminal.done →
      ∃ pre2, (sendMessage C st0 input fetchOk chunks term).trace
        = pre2 ++ [Act.pushTurn (Turn.mk "assistant".data (joinChunks chunks)),
            Act.saveHistory]) := by
  have hmono : ∃ ex, (sendMessage C st0 input fetchOk chunks term).trace
      = (preState st0 (jsTrim input)).trace ++ ex := by
    rcases fetchOk with _ | _
    · rw [sendMessage_eq_httpfail C st0 input chunks term ht]
      exact (catchHandler_props C (preState st0 (jsTrim input))).2.2.2.2.2.2.2
    · obtain ⟨ex1, hex1⟩ := runStream_trace_mono C chunks
        { preState st0 (jsTrim input) with aiBubble := none } [] [] true
      have hex1' : (runStream C chunks
          { preState st0 (jsTrim input) with aiBubble := none } [] [] true).st.trace
          = (preState st0 (jsTrim input)).trace ++ ex1 := by
        rw [hex1]
      rcases term with _ | _
      · rw [sendMessage_eq_done C st0 input chunks ht, finalizeDone]
        exact ⟨ex1 ++ [Act.pushTurn (Turn.mk "assistant".data _), Act.saveHistory],
          by rw [hex1', List.append_assoc]⟩
      · rw [sendMessage_eq_fail C st0 input chunks ht]
        obtain ⟨ex2, hex2⟩ := (catchHandler_props C (runStream C chunks
          { preState st0 (jsTrim input) with aiBubble := none } [] [] true).st
          ).2.2.2.2.2.2.2
        exact ⟨ex1 ++ ex2, by rw [hex2, hex1', List.append_assoc]⟩
  refine ⟨?_, ?_, ?_⟩
  · obtain ⟨ex, hex⟩ := hmono
    refine ⟨st0.trace ++ [Act.addUserBubble (jsTrim input), Act.scrollBottom,
      Act.pushTurn (Turn.mk "user".data (jsTrim input)), Act.saveHistory,
      Act.showLoading, Act.scrollBottom], ex, ?_, by simp⟩
    rw [hex]
    simp [preState, List.append_assoc]
  · rcases fetchOk with _ | _
    · rw [sendMessage_eq_httpfail C st0 input chunks term ht,
        (catchHandler_props C (preState st0 (jsTrim input))).2.2.2.2.2.1,
        turnPushes_pre]
      simp
    · rcases term with _ | _
      · rw [sendMessage_eq_done C st0 input chunks ht, finalizeDone]
        simp only [turnPushes_append]
        have hpp : turnPushes (runStream C chunks
            { preState st0 (jsTrim input) with aiBubble := none } [] [] true).st.trace
            = turnPushes st0.trace ++ [Turn.mk "user".data (jsTrim input)] := by
          rw [runStream_pushes]
          have := turnPushes_pre st0 (jsTrim input)
          simpa using this
        rw [hpp, runStream_raw]
        simp [turnPushes]
      · rw [sendMessage_eq_fail C st0 input chunks ht,
          (catchHandler_props C _).2.2.2.2.2.1, runStream_pushes]
        have := turnPushes_pre st0 (jsTrim input)
        simp only [show ({ preState st0 (jsTrim input) with aiBubble := none } :
          ChatState).trace = (preState st0 (jsTrim input)).trace from rfl]
        rw [this]
        simp
  · intro hok hterm
    subst hok
    subst hterm
    rw [sendMessage_eq_done C st0 input chunks ht, finalizeDone]
    refine ⟨(runStream C chunks { preState st0 (jsTrim input) with aiBubble := none }
      [] [] true).st.trace, ?_⟩
    rw [runStream_raw]

/-- C1: the rendered bubble after the stream is the formatted concatenation
of the chunks, so the final output depends only on the concatenation, not on
the chunk boundaries; the transcript agrees. -/
theorem chunk_boundary_insensitive (C : Collabs) (st0 : ChatState) (input : List Char)
    (term : Terminal) (cs cs' : List (Viewport × List Char))
    (ht : jsTrim input ≠ []) (hcs : cs ≠ []) (hcs' : cs' ≠ [])
    (hj : joinChunks cs = joinChunks cs') :
    (sendMessage C st0 input true cs term).aiBubble
      = some (formatMessage C (joinChunks cs)) ∧
    (sendMessage C st0 input true cs term).aiBubble
      = (sendMessage C st0 input true cs' term).aiBubble ∧
    (sendMessage C st0 input true cs term).history
      = (sendMessage C st0 input true cs' term).history := by
  have hbub : ∀ ds : List (Viewport × List Char), ds ≠ [] →
      (sendMessage C st0 input true ds term).aiBubble
        = some (formatMessage C (joinChunks ds)) := by
    intro ds hne
    have hb := runStream_bubble_ne C ds
      { preState st0 (jsTrim input) with aiBubble := none } [] [] hne
    rcases term with _ | _
    · rw [sendMessage_eq_done C st0 input ds ht, finalizeDone]
      simpa using hb
    · rw [sendMessage_eq_fail C st0 input ds ht,
        (catchHandler_props C _).2.2.1]
      simpa using hb
  have hhist : ∀ ds : List (Viewport × List Char),
      (sendMessage C st0 input true ds term).history
        = (preState st0 (jsTrim input)).history ++
          (if term = Terminal.done then [Turn.mk "assistant".data (joinChunks ds)]
           else []) := by
    intro ds
    rcases term with _ | _
    · rw [sendMessage_eq_done C st0 input ds ht, finalizeDone]
      simp only []
      rw [(runStream_stable C ds _ [] [] true).1, runStream_raw]
      rfl
    · rw [sendMessage_eq_fail C st0 input ds ht, (catchHandler_props C _).1,
        (runStream_stable C ds _ [] [] true).1]
      simp
  refine ⟨hbub cs hcs, ?_, ?_⟩
  · rw [hbub cs hcs, hbub cs' hcs', hj]
  · rw [hhist cs, hhist cs', hj]

/-- C7 (amended): a stream that delivers no bytes and ends cleanly creates no
message bubble — the loading indicator is never removed — but the code still
appends an assistant turn with empty content; if the stream instead errors,
only the user turn is recorded and one system message is shown. -/
theorem empty_stream (C : Collabs) (st0 : ChatState) (input : List Char)
    (term : Terminal) (ht : jsTrim input ≠ []) (h0 : st0.trace = []) :
    Act.createAiBubble ∉ (sendMessage C st0 input true [] term).trace ∧
    (sendMessage C st0 input true [] term).aiBubble = none ∧
    (term = Terminal.done →
      (sendMessage C st0 input true [] term).history
        = st0.history ++ [Turn.mk "user".data (jsTrim input),
            Turn.mk "assistant".data []]) ∧
    (term = Terminal.fail →
      (sendMessage C st0 input true [] term).history
        = st0.history ++ [Turn.mk "user".data (jsTrim input)] ∧
      (sendMessage C st0 input true [] term).systemBubbles
        = st0.systemBubbles ++ [formatMessage C errorMessage]) := by
  rcases term with _ | _
  · rw [sendMessage_eq_done C st0 input [] ht]
    have hrs : runStream C [] ({ preState st0 (jsTrim input) with aiBubble := none })
        [] [] true = ⟨{ preState st0 (jsTrim input) with aiBubble := none }, [], [], true⟩ :=
      rfl
    rw [hrs, finalizeDone]
    refine ⟨?_, rfl, ?_, ?_⟩
    · simp only [preState, h0]
      simp
    · intro _
      simp [preState, List.append_assoc]
    · intro h
      exact absurd h (by simp)
  · rw [sendMessage_eq_fail C st0 input [] ht]
    have hrs : runStream C [] ({ preState st0 (jsTrim input) with aiBubble := none })
        [] [] true = ⟨{ preState st0 (jsTrim input) with aiBubble := none }, [], [], true⟩ :=
      rfl
    rw [hrs]
    simp only []
    obtain ⟨ch1, ch2, ch3, ch4, ch5, ch6, ch7, ⟨seg, hseg⟩⟩ :=
      catchHandler_props C ({ preState st0 (jsTrim input) with aiBubble := none })
    refine ⟨?_, ?_, ?_, ?_⟩
    · rw [hseg]
      have hsegval : (catchHandler C ({ preState st0 (jsTrim input) with
          aiBubble := none })).trace
          = ({ preState st0 (jsTrim input) with aiBubble := none } : ChatState).trace
            ++ [Act.removeLoading,
              Act.addSystemBubble (formatMessage C errorMessage), Act.scrollBottom] := by
        simp [catchHandler, addMessage, preState, List.append_assoc]
      rw [hseg] at hsegval
      have hseg' := List.append_cancel_left hsegval
      rw [hseg']
      simp only [preState, h0]
      simp
    · rw [ch3]
    · intro h
      exact absurd h (by simp)
    · intro _
      constructor
      · rw [ch1]
        simp [preState]
      · rw [ch5]
        simp [preState]

/-- C8 (amended): on transport failure — a non-ok response or an exception
mid-stream — the loading indicator is gone, exactly one system message is
appended, no assistant turn is recorded; the loading placeholder is the only
thing removed: a partial bubble created by earlier chunks stays in the view
with its partial formatted content. -/
theorem transport_failure (C : Collabs) (st0 : ChatState) (input : List Char)
    (fetchOk : Bool) (chunks : List (Viewport × List Char)) (term : Terminal)
    (ht : jsTrim input ≠ []) (hf : fetchOk = false ∨ term = Terminal.fail) :
    (sendMessage C st0 input fetchOk chunks term).loadingShown = false ∧
    (sendMessage C st0 input fetchOk chunks term).systemBubbles
      = st0.systemBubbles ++ [formatMessage C errorMessage] ∧
    (sendMessage C st0 input fetchOk chunks term).history
      = st0.history ++ [Turn.mk "user".data (jsTrim input)] ∧
    (sendMessage C st0 input fetchOk chunks term).aiBubble
      = (if fetchOk = false then st0.aiBubble
         else if chunks = [] then none
         else some (formatMessage C (joinChunks chunks))) := by
  rcases fetchOk with _ | _
  · rw [sendMessage_eq_httpfail C st0 input chunks term ht]
    obtain ⟨ch1, ch2, ch3, ch4, ch5, _, _, _⟩ :=
      catchHandler_props C (preState st0 (jsTrim input))
    refine ⟨ch2, ?_, ?_, ?_⟩
    · rw [ch5]; simp [preState]
    · rw [ch1]; simp [preState]
    · rw [ch3]; simp [preState]
  · have hterm : term = Terminal.fail := by
      rcases hf with hf | hf
      · exact absurd hf (by simp)
      · exact hf
    subst hterm
    rw [sendMessage_eq_fail C st0 input chunks ht]
    obtain ⟨ch1, ch2, ch3, ch4, ch5, _, _, _⟩ :=
      catchHandler_props C (runStream C chunks
        { preState st0 (jsTrim input) with aiBubble := none } [] [] true).st
    refine ⟨ch2, ?_, ?_, ?_⟩
    · rw [ch5, (runStream_stable C chunks _ [] [] true).2.2]
      simp [preState]
    · rw [ch1, (runStream_stable C chunks _ [] [] true).1]
      simp [preState]
    · rw [ch3]
      rcases hcs : chunks with _ | ⟨⟨v, chunk⟩, rest⟩
      · simp [runStream]
      · rw [← hcs, runStream_bubble_ne C chunks _ [] [] (by rw [hcs]; simp)]
        rw [hcs]
        simp

theorem formatMessage_strip_congr (C : Collabs) (hm : C.markedAvailable = true)
    {t1 t2 : List Char} (h : stripThink t1 = stripThink t2) :
    formatMessage C t1 = formatMessage C t2 := by
  rw [formatMessage, formatMessage, hm]
  simp only [if_neg (by simp : ¬(true = false))]
  rw [h]

/-- C2 (amended): with the reasoning body `A` think-free and the surrounding
text `p ++ B` free of think tags (in both spellings, also across the
junction), a complete `<think>A</think>` pair is removed and the formatter
renders exactly what it renders for `p ++ B`. -/
theorem think_pair_removed (C : Collabs) (p A B : List Char)
    (hm : C.markedAvailable = true) (hA : ThinkFree A) (hPB : ThinkFree (p ++ B)) :
    stripThink (p ++ thinkOpen ++ A ++ thinkClose ++ B) = jsTrim (p ++ B) ∧
    formatMessage C (p ++ thinkOpen ++ A ++ thinkClose ++ B)
      = formatMessage C (p ++ B) := by
  refine ⟨stripThink_pair hA hPB, ?_⟩
  apply formatMessage_strip_congr C hm
  rw [stripThink_pair hA hPB, stripThink_free hPB]

/-- C3 (amended): a trailing unterminated `<think>C` is hidden together with
everything after it — the formatter renders what it renders for the prefix
alone — and once the closing tag and `D` arrive, the whole pair is removed
and the formatter renders what it renders for `p ++ D`. -/
theorem think_incomplete_hidden (C : Collabs) (p Cc D : List Char)
    (hm : C.markedAvailable = true) (hC : ThinkFree Cc) (hPD : ThinkFree (p ++ D)) :
    stripThink (p ++ thinkOpen ++ Cc) = jsTrim p ∧
    formatMessage C (p ++ thinkOpen ++ Cc) = formatMessage C p ∧
    stripThink (p ++ thinkOpen ++ Cc ++ thinkClose ++ D) = jsTrim (p ++ D) ∧
    formatMessage C (p ++ thinkOpen ++ Cc ++ thinkClose ++ D)
      = formatMessage C (p ++ D) := by
  have hp : ThinkFree p := hPD.infix (List.prefix_append p D).isInfix
  refine ⟨stripThink_incomplete hp hC, ?_, stripThink_pair hC hPD, ?_⟩
  · apply formatMessage_strip_congr C hm
    rw [stripThink_incomplete hp hC, stripThink_free hp]
  · apply formatMessage_strip_congr C hm
    rw [stripThink_pair hC hPD, stripThink_free hPD]

/-- C4 (amended): for a math span whose body and surrounding text are free of
delimiter, placeholder and think-tag characters (`$`, `\`, `%`, `<`, `&`),
with a nonempty body that (for the single-dollar spelling) contains no
newline, and with collaborators that leave the placeholder tokens intact, the
formatter restores the span's trimmed TeX wrapped in double-dollar delimiters
for both display spellings and in backslash-paren delimiters for both inline
spellings, trimming the outer text.  Without the delimiter-free-surroundings
assumption the claim fails: think-tag stripping runs before masking and can
delete the span. -/
theorem math_roundtrip (p T s : List Char)
    (hp : ∀ c ∈ p, mathSafe c = true) (hT : ∀ c ∈ T, mathSafe c = true)
    (hs : ∀ c ∈ s, mathSafe c = true) (hTne : T ≠ []) (hTn : '\n' ∉ T) :
    formatMessage idCollabs (p ++ "$$".data ++ T ++ "$$".data ++ s)
      = trimL p ++ "$$".data ++ jsTrim T ++ "$$".data ++ trimR s ∧
    formatMessage idCollabs (p ++ "\\[".data ++ T ++ "\\]".data ++ s)
      = trimL p ++ "$$".data ++ jsTrim T ++ "$$".data ++ trimR s ∧
    formatMessage idCollabs (p ++ "$".data ++ T ++ "$".data ++ s)
      = trimL p ++ "\\(".data ++ jsTrim T ++ "\\)".data ++ trimR s ∧
    formatMessage idCollabs (p ++ "\\(".data ++ T ++ "\\)".data ++ s)
      = trimL p ++ "\\(".data ++ jsTrim T ++ "\\)".data ++ trimR s := by
  refine ⟨?_, ?_, ?_, ?_⟩
  · have h1 : p ++ "$$".data ++ T ++ "$$".data ++ s
        = p ++ ('$' :: '$' :: (T ++ '$' :: '$' :: s)) := by
      simp [show "$$".data = ['$', '$'] from rfl]
    have h2 : trimL p ++ "$$".data ++ jsTrim T ++ "$$".data ++ trimR s
        = trimL p ++ ('$' :: '$' :: (jsTrim T ++ '$' :: '$' :: trimR s)) := by
      simp [show "$$".data = ['$', '$'] from rfl]
    rw [h1, h2]
    exact formatMessage_DD hp hT hs hTne
  · have h1 : p ++ "\\[".data ++ T ++ "\\]".data ++ s
        = p ++ ('\\' :: '[' :: (T ++ '\\' :: ']' :: s)) := by
      simp [show "\\[".data = ['\\', '['] from rfl, show "\\]".data = ['\\', ']'] from rfl]
    have h2 : trimL p ++ "$$".data ++ jsTrim T ++ "$$".data ++ trimR s
        = trimL p ++ ('$' :: '$' :: (jsTrim T ++ '$' :: '$' :: trimR s)) := by
      simp [show "$$".data = ['$', '$'] from rfl]
    rw [h1, h2]
    exact formatMessage_Brk hp hT hs hTne
  · have h1 : p ++ "$".data ++ T ++ "$".data ++ s
        = p ++ ('$' :: (T ++ '$' :: s)) := by
      simp [show "$".data = ['$'] from rfl]
    have h2 : trimL p ++ "\\(".data ++ jsTrim T ++ "\\)".data ++ trimR s
        = trimL p ++ ('\\' :: '(' :: (jsTrim T ++ '\\' :: ')' :: trimR s)) := by
      simp [show "\\(".data = ['\\', '('] from rfl, show "\\)".data = ['\\', ')'] from rfl]
    rw [h1, h2]
    exact formatMessage_SD hp hT hs hTne hTn
  · have h1 : p ++ "\\(".data ++ T ++ "\\)".data ++ s
        = p ++ ('\\' :: '(' :: (T ++ '\\' :: ')' :: s)) := by
      simp [show "\\(".data = ['\\', '('] from rfl, show "\\)".data = ['\\', ')'] from rfl]
    have h2 : trimL p ++ "\\(".data ++ jsTrim T ++ "\\)".data ++ trimR s
        = trimL p ++ ('\\' :: '(' :: (jsTrim T ++ '\\' :: ')' :: trimR s)) := by
      simp [show "\\(".data = ['\\', '('] from rfl, show "\\)".data = ['\\', ')'] from rfl]
    rw [h1, h2]
    exact formatMessage_Paren hp hT hs hTne

/-- Counterexample to C4 as stated: the input `<think>$$x^2$$` contains a
display span, yet the formatted output is empty — think-tag stripping runs
before masking and deletes the span — so the output does not contain the TeX
wrapped in double-dollar delimiters. -/
theorem math_roundtrip_cex :
    formatMessage idCollabs "<think>$$x^2$$".data = [] ∧
    ¬ "$$x^2$$".data <:+: formatMessage idCollabs "<think>$$x^2$$".data := by
  decide

/-- Witness for the amended C4 at `p = "a"`, `T = "x^2"`, `s = "b"`. -/
theorem math_roundtrip_witness :
    ((∀ c ∈ ['a'], mathSafe c = true) ∧ (∀ c ∈ "x^2".data, mathSafe c = true) ∧
      (∀ c ∈ ['b'], mathSafe c = true) ∧ "x^2".data ≠ [] ∧ '\n' ∉ "x^2".data) ∧
    (formatMessage idCollabs (['a'] ++ "$$".data ++ "x^2".data ++ "$$".data ++ ['b'])
        = trimL ['a'] ++ "$$".data ++ jsTrim "x^2".data ++ "$$".data ++ trimR ['b'] ∧
      formatMessage idCollabs (['a'] ++ "\\[".data ++ "x^2".data ++ "\\]".data ++ ['b'])
        = trimL ['a'] ++ "$$".data ++ jsTrim "x^2".data ++ "$$".data ++ trimR ['b'] ∧
      formatMessage idCollabs (['a'] ++ "$".data ++ "x^2".data ++ "$".data ++ ['b'])
        = trimL ['a'] ++ "\\(".data ++ jsTrim "x^2".data ++ "\\)".data ++ trimR ['b'] ∧
      formatMessage idCollabs (['a'] ++ "\\(".data ++ "x^2".data ++ "\\)".data ++ ['b'])
        = trimL ['a'] ++ "\\(".data ++ jsTrim "x^2".data ++ "\\)".data ++ trimR ['b']) :=
  ⟨⟨by decide, by decide, by decide, by decide, by decide⟩,
    math_roundtrip ['a'] "x^2".data ['b'] (by decide) (by decide) (by decide)
      (by decide) (by decide)⟩

/-- C10: after the four removal passes, the text handed to math masking and
the markdown parser contains no raw `<think>` and no escaped `&lt;think&gt;`
start tag in any character case — the trailing to-end-of-string passes
eliminate even occurrences spliced together by pair removal. -/
theorem reasoning_suppression_invariant (s : List Char) :
    ¬ thinkOpen.map lcase <:+: (stripThink s).map lcase ∧
    ¬ escOpen.map lcase <:+: (stripThink s).map lcase := by
  obtain ⟨h1, h2⟩ := stripThink_clean s
  exact ⟨splitF_none_iff.1 h1, splitF_none_iff.1 h2⟩

set_option maxRecDepth 4000 in
theorem unmatched_dollar_literal : formatMessage idCollabs "$x".data = "$x".data := by
  decide

set_option maxRecDepth 4000 in
theorem unmatched_bracket_literal : formatMessage idCollabs "\\[x".data = "\\[x".data := by
  decide

/-- C9: when the markdown parse throws, the formatter falls back to the
pre-parse placeholder-bearing content, skips the sanitizer, and still
performs both math restorations; no other stage can throw — the model is a
total function — and unmatched delimiters pass through as literal text. -/
theorem parse_failure_fallback (C : Collabs) (text : List Char)
    (hm : C.markedAvailable = true)
    (hthrow : C.parse (maskInl (maskDisp (stripThink text) 0).1 0).1 = none) :
    formatMessage C text
      = restoreInl (maskInl (maskDisp (stripThink text) 0).1 0).2
          (restoreDisp (maskDisp (stripThink text) 0).2
            (maskInl (maskDisp (stripThink text) 0).1 0).1) ∧
    formatMessage idCollabs "$x".data = "$x".data ∧
    formatMessage idCollabs "\\[x".data = "\\[x".data := by
  refine ⟨?_, unmatched_dollar_literal, unmatched_bracket_literal⟩
  rw [formatMessage, hm]
  simp only [if_neg (by simp : ¬(true = false))]
  rw [hthrow]

/-- Counterexample to C2 as stated: with prefix `<thi`, body `a` and suffix
`nk>x` — both body and suffix free of think tags — pair removal splices the
surrounding text into a new `<think>` start tag, the trailing pass deletes
everything, and the output does not include the suffix. -/
theorem think_pair_removed_cex :
    ThinkFree "a".data ∧ ThinkFree "nk>x".data ∧
    formatMessage idCollabs
      ("<thi".data ++ thinkOpen ++ "a".data ++ thinkClose ++ "nk>x".data) = [] ∧
    ¬ "nk>x".data <:+: formatMessage idCollabs
      ("<thi".data ++ thinkOpen ++ "a".data ++ thinkClose ++ "nk>x".data) := by
  decide

/-- Witness for the amended C2 at `p = "x"`, `A = "r"`, `B = "y"`. -/
theorem think_pair_removed_witness :
    (idCollabs.markedAvailable = true ∧ ThinkFree "r".data ∧
      ThinkFree ("x".data ++ "y".data)) ∧
    (stripThink ("x".data ++ thinkOpen ++ "r".data ++ thinkClose ++ "y".data)
        = jsTrim ("x".data ++ "y".data) ∧
      formatMessage idCollabs ("x".data ++ thinkOpen ++ "r".data ++ thinkClose ++ "y".data)
        = formatMessage idCollabs ("x".data ++ "y".data)) :=
  ⟨⟨by decide, by decide, by decide⟩,
    think_pair_removed idCollabs "x".data "r".data "y".data
      (by decide) (by decide) (by decide)⟩

/-- Counterexample to C3 as stated: in the buffer `c<think>c` the hidden text
`C = "c"` also occurs in the visible prefix, so the output does not exclude
`C` as a string — it renders the prefix, which contains it. -/
theorem think_incomplete_hidden_cex :
    formatMessage idCollabs ("c".data ++ thinkOpen ++ "c".data) = "c".data ∧
    "c".data <:+: formatMessage idCollabs ("c".data ++ thinkOpen ++ "c".data) := by
  decide

/-- Witness for the amended C3 at `p = "x"`, `C = "c"`, `D = "d"`. -/
theorem think_incomplete_hidden_witness :
    (idCollabs.markedAvailable = true ∧ ThinkFree "c".data ∧
      ThinkFree ("x".data ++ "d".data)) ∧
    (stripThink ("x".data ++ thinkOpen ++ "c".data) = jsTrim "x".data ∧
      formatMessage idCollabs ("x".data ++ thinkOpen ++ "c".data)
        = formatMessage idCollabs "x".data ∧
      stripThink ("x".data ++ thinkOpen ++ "c".data ++ thinkClose ++ "d".data)
        = jsTrim ("x".data ++ "d".data) ∧
      formatMessage idCollabs ("x".data ++ thinkOpen ++ "c".data ++ thinkClose ++ "d".data)
        = formatMessage idCollabs ("x".data ++ "d".data)) :=
  ⟨⟨by decide, by decide, by decide⟩,
    think_incomplete_hidden idCollabs "x".data "c".data "d".data
      (by decide) (by decide) (by decide)⟩

/-- Witness for C1 at input `hi`, one-chunk stream `ab` versus two-chunk
stream `a`, `b`. -/
theorem chunk_boundary_insensitive_witness :
    (jsTrim "hi".data ≠ [] ∧
      ([((⟨0, 0, 0⟩ : Viewport), "ab".data)] : List (Viewport × List Char)) ≠ [] ∧
      ([((⟨0, 0, 0⟩ : Viewport), "a".data), ((⟨0, 0, 0⟩ : Viewport), "b".data)] :
        List (Viewport × List Char)) ≠ [] ∧
      joinChunks [((⟨0, 0, 0⟩ : Viewport), "ab".data)]
        = joinChunks [((⟨0, 0, 0⟩ : Viewport), "a".data),
            ((⟨0, 0, 0⟩ : Viewport), "b".data)]) ∧
    ((sendMessage idCollabs ⟨[], [], false, none, [], []⟩ "hi".data true
        [((⟨0, 0, 0⟩ : Viewport), "ab".data)] Terminal.done).aiBubble
      = some (formatMessage idCollabs
          (joinChunks [((⟨0, 0, 0⟩ : Viewport), "ab".data)])) ∧
      (sendMessage idCollabs ⟨[], [], false, none, [], []⟩ "hi".data true
        [((⟨0, 0, 0⟩ : Viewport), "ab".data)] Terminal.done).aiBubble
        = (sendMessage idCollabs ⟨[], [], false, none, [], []⟩ "hi".data true
            [((⟨0, 0, 0⟩ : Viewport), "a".data), ((⟨0, 0, 0⟩ : Viewport), "b".data)]
            Terminal.done).aiBubble ∧
      (sendMessage idCollabs ⟨[], [], false, none, [], []⟩ "hi".data true
        [((⟨0, 0, 0⟩ : Viewport), "ab".data)] Terminal.done).history
        = (sendMessage idCollabs ⟨[], [], false, none, [], []⟩ "hi".data true
            [((⟨0, 0, 0⟩ : Viewport), "a".data), ((⟨0, 0, 0⟩ : Viewport), "b".data)]
            Terminal.done).history) :=
  ⟨⟨by decide, by decide, by decide, by decide⟩,
    chunk_boundary_insensitive idCollabs ⟨[], [], false, none, [], []⟩ "hi".data
      Terminal.done [((⟨0, 0, 0⟩ : Viewport), "ab".data)]
      [((⟨0, 0, 0⟩ : Viewport), "a".data), ((⟨0, 0, 0⟩ : Viewport), "b".data)]
      (by decide) (by decide) (by decide) (by decide)⟩

/-- Witness for C5 at a two-chunk stream whose second viewport is far from
the bottom. -/
theorem autoscroll_decisions_witness :
    (jsTrim "hi".data ≠ [] ∧
      (⟨[], [], false, none, [], []⟩ : ChatState).trace = []) ∧
    scrollChoices (sendMessage idCollabs ⟨[], [], false, none, [], []⟩ "hi".data true
        [((⟨0, 0, 0⟩ : Viewport), "a".data), ((⟨100, 0, 0⟩ : Viewport), "b".data)]
        Terminal.done).trace
      = autoScrollSpec [((⟨0, 0, 0⟩ : Viewport), "a".data),
          ((⟨100, 0, 0⟩ : Viewport), "b".data)] :=
  ⟨⟨by decide, by decide⟩,
    autoscroll_decisions idCollabs ⟨[], [], false, none, [], []⟩ "hi".data
      [((⟨0, 0, 0⟩ : Viewport), "a".data), ((⟨100, 0, 0⟩ : Viewport), "b".data)]
      Terminal.done (by decide) (by decide)⟩

/-- Witness for C6 at input `hi` and a clean one-chunk stream. -/
theorem transcript_ordering_witness :
    (jsTrim "hi".data ≠ []) ∧
    ((∃ pre post, (sendMessage idCollabs ⟨[], [], false, none, [], []⟩ "hi".data true
          [((⟨0, 0, 0⟩ : Viewport), "a".data)] Terminal.done).trace
        = pre ++ Act.dispatchRequest :: post
        ∧ Act.pushTurn (Turn.mk "user".data (jsTrim "hi".data)) ∈ pre) ∧
      turnPushes (sendMessage idCollabs ⟨[], [], false, none, [], []⟩ "hi".data true
          [((⟨0, 0, 0⟩ : Viewport), "a".data)] Terminal.done).trace
        = turnPushes (⟨[], [], false, none, [], []⟩ : ChatState).trace ++
            Turn.mk "user".data (jsTrim "hi".data) ::
            (if true = true ∧ Terminal.done = Terminal.done
             then [Turn.mk "assistant".data
               (joinChunks [((⟨0, 0, 0⟩ : Viewport), "a".data)])] else []) ∧
      (true = true → Terminal.done = Terminal.done →
        ∃ pre2, (sendMessage idCollabs ⟨[], [], false, none, [], []⟩ "hi".data true
            [((⟨0, 0, 0⟩ : Viewport), "a".data)] Terminal.done).trace
          = pre2 ++ [Act.pushTurn (Turn.mk "assistant".data
              (joinChunks [((⟨0, 0, 0⟩ : Viewport), "a".data)])), Act.saveHistory])) :=
  ⟨by decide,
    transcript_ordering idCollabs ⟨[], [], false, none, [], []⟩ "hi".data true
      [((⟨0, 0, 0⟩ : Viewport), "a".data)] Terminal.done (by decide)⟩

/-- Witness for the amended C7: a clean zero-byte stream at input `hi`. -/
theorem empty_stream_witness :
    (jsTrim "hi".data ≠ [] ∧
      (⟨[], [], false, none, [], []⟩ : ChatState).trace = []) ∧
    (Act.createAiBubble ∉ (sendMessage idCollabs ⟨[], [], false, none, [], []⟩
        "hi".data true [] Terminal.done).trace ∧
      (sendMessage idCollabs ⟨[], [], false, none, [], []⟩ "hi".data true []
          Terminal.done).aiBubble = none ∧
      (Terminal.done = Terminal.done →
        (sendMessage idCollabs ⟨[], [], false, none, [], []⟩ "hi".data true []
            Terminal.done).history
          = (⟨[], [], false, none, [], []⟩ : ChatState).history ++
              [Turn.mk "user".data (jsTrim "hi".data),
                Turn.mk "assistant".data []]) ∧
      (Terminal.done = Terminal.fail →
        (sendMessage idCollabs ⟨[], [], false, none, [], []⟩ "hi".data true []
            Terminal.done).history
          = (⟨[], [], false, none, [], []⟩ : ChatState).history ++
              [Turn.mk "user".data (jsTrim "hi".data)] ∧
        (sendMessage idCollabs ⟨[], [], false, none, [], []⟩ "hi".data true []
            Terminal.done).systemBubbles
          = (⟨[], [], false, none, [], []⟩ : ChatState).systemBubbles ++
              [formatMessage idCollabs errorMessage])) :=
  ⟨⟨by decide, by decide⟩,
    empty_stream idCollabs ⟨[], [], false, none, [], []⟩ "hi".data Terminal.done
      (by decide) (by decide)⟩

/-- Counterexample to C7 as stated: on a clean `done` with zero bytes the
transcript does not hold only the user turn — the code unconditionally
appends an assistant turn with empty content. -/
theorem empty_stream_cex :
    (sendMessage idCollabs ⟨[], [], false, none, [], []⟩ "hi".data true []
        Terminal.done).history
      = [Turn.mk "user".data "hi".data, Turn.mk "assistant".data []] := by
  decide

/-- Witness for the amended C8: an exception after one delivered chunk. -/
theorem transport_failure_witness :
    (jsTrim "hi".data ≠ [] ∧
      ((true : Bool) = false ∨ Terminal.fail = Terminal.fail)) ∧
    ((sendMessage idCollabs ⟨[], [], false, none, [], []⟩ "hi".data true
        [((⟨0, 0, 0⟩ : Viewport), "a".data)] Terminal.fail).loadingShown = false ∧
      (sendMessage idCollabs ⟨[], [], false, none, [], []⟩ "hi".data true
          [((⟨0, 0, 0⟩ : Viewport), "a".data)] Terminal.fail).systemBubbles
        = (⟨[], [], false, none, [], []⟩ : ChatState).systemBubbles ++
            [formatMessage idCollabs errorMessage] ∧
      (sendMessage idCollabs ⟨[], [], false, none, [], []⟩ "hi".data true
          [((⟨0, 0, 0⟩ : Viewport), "a".data)] Terminal.fail).history
        = (⟨[], [], false, none, [], []⟩ : ChatState).history ++
            [Turn.mk "user".data (jsTrim "hi".data)] ∧
      (sendMessage idCollabs ⟨[], [], false, none, [], []⟩ "hi".data true
          [((⟨0, 0, 0⟩ : Viewport), "a".data)] Terminal.fail).aiBubble
        = (if (true : Bool) = false
           then (⟨[], [], false, none, [], []⟩ : ChatState).aiBubble
           else if ([((⟨0, 0, 0⟩ : Viewport), "a".data)] :
               List (Viewport × List Char)) = [] then none
           else some (formatMessage idCollabs
             (joinChunks [((⟨0, 0, 0⟩ : Viewport), "a".data)])))) :=
  ⟨⟨by decide, by decide⟩,
    transport_failure idCollabs ⟨[], [], false, none, [], []⟩ "hi".data true
      [((⟨0, 0, 0⟩ : Viewport), "a".data)] Terminal.fail (by decide) (by decide)⟩

/-- Counterexample to C8 as stated: after one chunk arrives the loading
placeholder has been replaced by the AI bubble; on a subsequent exception the
bubble is not removed — it remains with the partial formatted content. -/
theorem transport_failure_cex :
    (sendMessage idCollabs ⟨[], [], false, none, [], []⟩ "hi".data true
        [((⟨0, 0, 0⟩ : Viewport), "a".data)] Terminal.fail).aiBubble
      = some "a".data := by
  decide

/-- Witness for C9: a markdown engine whose parse throws on every input. -/
theorem parse_failure_fallback_witness :
    ((⟨true, fun _ => none, none⟩ : Collabs).markedAvailable = true ∧
      (⟨true, fun _ => none, none⟩ : Collabs).parse
        (maskInl (maskDisp (stripThink "hi".data) 0).1 0).1 = none) ∧
    (formatMessage ⟨true, fun _ => none, none⟩ "hi".data
        = restoreInl (maskInl (maskDisp (stripThink "hi".data) 0).1 0).2
            (restoreDisp (maskDisp (stripThink "hi".data) 0).2
              (maskInl (maskDisp (stripThink "hi".data) 0).1 0).1) ∧
      formatMessage idCollabs "$x".data = "$x".data ∧
      formatMessage idCollabs "\\[x".data = "\\[x".data) :=
  ⟨⟨by decide, by decide⟩,
    parse_failure_fallback ⟨true, fun _ => none, none⟩ "hi".data
      (by decide) (by decide)⟩

end Girei
